import Mathlib

/-
  Verification development for the omega-builder-server agentic build-repair
  pipeline.  The Python sources are shallowly embedded:

  * paths are lists of components of the resolved absolute path
    (pathlib's `(ROOT / p).resolve()` becomes `resolveUnder`);
  * the filesystem is an association list from resolved paths to file
    contents; directories are implicit (a directory exists when some file
    lives strictly below it, or when it is an ancestor of the repository
    root, which exists on disk);
  * every tool returns a result record mirroring the JSON dict the Python
    code returns, plus the updated filesystem;
  * `re` (the regex library) is external to the repository, so `fs_patch`
    takes the substitution engine as a parameter; an invalid pattern is an
    engine returning `none` (Python's `re.error`).
-/

namespace Spec2Proof

/-! ## Path model (pathlib semantics) -/

abbrev Path := List String

/-- Kernel-computable split on a separator character (structural recursion,
so `decide` can evaluate it; core `String.splitOn` cannot be reduced by the
kernel). -/
def splitCharAux (sep : Char) : List Char → List Char → List (List Char)
  | [], acc => [acc.reverse]
  | c :: cs, acc =>
      if c = sep then acc.reverse :: splitCharAux sep cs []
      else splitCharAux sep cs (c :: acc)

def splitChar (sep : Char) (s : String) : List String :=
  (splitCharAux sep s.data []).map String.mk

def strStarts (s pre : String) : Bool := pre.data.isPrefixOf s.data

def strEnds (s suf : String) : Bool := suf.data.isSuffixOf s.data

/-- Components of a path string the way `pathlib.PurePosixPath` parses them:
split on the separator, drop empty components and `.` (kept: `..`). -/
def pyParts (s : String) : List String :=
  (splitChar ('/') s).filter (fun c => !(c == "") && !(c == "."))

def pyIsAbs (s : String) : Bool := strStarts s ("/")

/-- One step of `Path.resolve()` normalisation: `..` pops a component
(staying put at the filesystem root), anything else is appended. -/
def normStep (st : List String) (c : String) : List String :=
  if c = ".." then st.dropLast else st ++ [c]

def normalize (cs : List String) : Path := cs.foldl normStep []

/-- `(root / s).resolve()`: joining an absolute `s` discards `root`
(pathlib semantics), then `..`/`.` are normalised away. -/
def resolveUnder (root : Path) (s : String) : Path :=
  if pyIsAbs s then normalize (pyParts s) else normalize (root ++ pyParts s)

def joinSlash : List String → String
  | [] => ""
  | [c] => c
  | c :: cs => c ++ ("/") ++ joinSlash cs

def renderPath (p : Path) : String := ("/") ++ joinSlash p

/-- `p.is_relative_to(base)` on resolved paths. -/
def isWithinB (base p : Path) : Bool := base.isPrefixOf p

/-- `_safe_rel`: render relative to the root when possible, else absolute. -/
def safeRel (root p : Path) : String :=
  if isWithinB root p then joinSlash (p.drop root.length)
  else renderPath p

/-- `Path(s).name`: the final component (empty when there is none). -/
def pathName (s : String) : String := (pyParts s).getLastD ("")

/-! ## Filesystem model -/

/-- Files of the filesystem: resolved path -> contents.  Directories are
implicit. -/
abbrev FS := List (Path × String)

def lookupFS (fs : FS) (p : Path) : Option String :=
  (fs.find? (fun e => e.1 == p)).map (fun e => e.2)

def isFileB (fs : FS) (p : Path) : Bool := (lookupFS fs p).isSome

/-- A directory exists at `p` when `p` is an ancestor (or the root chain
itself, which exists on disk) or some file lives strictly below it. -/
def isDirB (root : Path) (fs : FS) (p : Path) : Bool :=
  p.isPrefixOf root || fs.any (fun e => !(e.1 == p) && p.isPrefixOf e.1)

def existsB (root : Path) (fs : FS) (p : Path) : Bool :=
  isFileB fs p || isDirB root fs p

/-- `d.mkdir(parents=True, exist_ok=True)` succeeds unless some prefix of
`d` is an existing regular file. -/
def mkdirOk (fs : FS) (d : Path) : Bool :=
  d.inits.all (fun q => !(isFileB fs q))

/-- Overwrite-or-insert, preserving entry order (so rewriting a file with
identical contents is literally the identity on the list). -/
def setFS (fs : FS) (p : Path) (c : String) : FS :=
  if isFileB fs p then fs.map (fun e => if e.1 = p then (p, c) else e)
  else fs ++ [(p, c)]

def eraseFS (fs : FS) (p : Path) : FS := fs.filter (fun e => !(e.1 == p))

/-- `shutil.rmtree`: drop every file at or below `p`. -/
def eraseTree (fs : FS) (p : Path) : FS := fs.filter (fun e => !(p.isPrefixOf e.1))

/-! ## Sandbox filesystem tools (backend/app/integrations/agent/tools.py)

The tool result record mirrors the JSON dict each tool returns; fields a
given tool does not set stay at their defaults. -/

structure MapEntry where
  mpath : String
  etype : String
  size : Option Nat := none
  content : Option String := none
  deriving Repr, DecidableEq

structure ToolResult where
  ok : Bool
  skipped : Bool := false
  reason : Option String := none
  error : Option String := none
  rpath : Option String := none
  bytes : Option Nat := none
  size : Option Nat := none
  truncated : Option Bool := none
  content : Option String := none
  matchesL : Option (List String) := none   -- the JSON key is "matches"
  count : Option Nat := none
  diff : Option String := none
  text : Option String := none
  unified : Option String := none
  summary : Option String := none
  changed : Option Bool := none
  edits : Option Nat := none
  etype : Option String := none
  entries : Option (List MapEntry) := none
  deriving Repr, DecidableEq

def errRes (msg : String) : ToolResult := { ok := false, error := some msg }

def errResAt (msg p : String) : ToolResult :=
  { ok := false, error := some msg, rpath := some p }

/-- Byte length of a string under UTF-8 (`st_size` of a written text file). -/
def utf8Len (s : String) : Nat := s.data.foldl (fun n c => n + c.utf8Size) 0

/-- `fs_write`: no containment check is performed on the resolved path. -/
def fs_write (root : Path) (fs : FS) (path content mode : String) :
    ToolResult × FS :=
  if ¬ (mode = "w" ∨ mode = "a") then
    (errRes ("Invalid mode (use w or a)"), fs)
  else
    let fp := resolveUnder root path
    if ¬ mkdirOk fs fp.dropLast then
      (errResAt ("mkdir failed") path, fs)
    else if isDirB root fs fp then
      (errResAt ("is a directory") path, fs)
    else
      let newC := if mode = "a" then ((lookupFS fs fp).getD ("")) ++ content
                  else content
      ({ ok := true, rpath := some (safeRel root fp),
         bytes := some content.length }, setFS fs fp newC)

/-- `_read_file` + `fs_read` (text files; truncation by the byte cap,
modelled on character counts, which agree on ASCII contents). -/
def fs_readRes (root : Path) (fs : FS) (path : String) (maxBytes : Nat) :
    ToolResult :=
  let fp := resolveUnder root path
  match lookupFS fs fp with
  | none => errResAt ("File not found") (safeRel root fp)
  | some data =>
      let size := utf8Len data
      let truncated := decide (size > maxBytes)
      { ok := true, rpath := some (safeRel root fp), size := some size,
        truncated := some truncated,
        content := some (if truncated then data.take maxBytes else data) }

/-- `fs_read` never writes; the filesystem is returned unchanged. -/
def fs_read (root : Path) (fs : FS) (path : String) (maxBytes : Nat) :
    ToolResult × FS :=
  (fs_readRes root fs path maxBytes, fs)

/-- `fs_mkdir`: directories are implicit in the model, so a successful
mkdir changes nothing observable; conflicts with regular files fail. -/
def fs_mkdir (root : Path) (fs : FS) (path : String)
    (existOk parents : Bool) : ToolResult × FS :=
  let fp := resolveUnder root path
  if isFileB fs fp then (errResAt ("file exists") path, fs)
  else if isDirB root fs fp ∧ ¬ existOk then
    (errResAt ("directory exists") path, fs)
  else if ¬ parents ∧ ¬ (isDirB root fs fp ∨ isDirB root fs fp.dropLast) then
    (errResAt ("parent missing") path, fs)
  else if ¬ mkdirOk fs fp then (errResAt ("mkdir failed") path, fs)
  else ({ ok := true, rpath := some (safeRel root fp) }, fs)

/-- `fs_delete`: note the absence of any deny-list — every resolvable
target is deleted. -/
def fs_delete (root : Path) (fs : FS) (path : String) (recursive : Bool) :
    ToolResult × FS :=
  let fp := resolveUnder root path
  if isDirB root fs fp then
    if recursive then
      ({ ok := true, rpath := some (safeRel root fp), etype := some ("dir") },
       eraseTree fs fp)
    else if fs.any (fun e => !(e.1 == fp) && fp.isPrefixOf e.1)
            ∨ fp.isPrefixOf root ∧ fp ≠ root then
      (errResAt ("Directory not empty") path, fs)
    else
      ({ ok := true, rpath := some (safeRel root fp), etype := some ("dir") }, fs)
  else if isFileB fs fp then
    ({ ok := true, rpath := some (safeRel root fp), etype := some ("file") },
     eraseFS fs fp)
  else
    ({ ok := true, rpath := some (safeRel root fp), etype := some ("missing") }, fs)

/-! ### fs_patch

`re.subn` is external; `SubnEngine pat repl s count` returns
`some (newText, n)` on success and `none` when the pattern is rejected
(`re.error`). -/

structure Replacement where
  pattern : String
  replacement : String
  rcount : Nat := 0
  deriving Repr, DecidableEq

abbrev SubnEngine := String → String → String → Nat → Option (String × Nat)

def applyRepls (subn : SubnEngine) :
    List Replacement → String → Nat → Option (String × Nat)
  | [], cur, total => some (cur, total)
  | r :: rs, cur, total =>
    match subn r.pattern r.replacement cur r.rcount with
    | none => none
    | some (newText, n) =>
        if n > 0 then applyRepls subn rs newText (total + n)
        else applyRepls subn rs cur total

def fs_patch (subn : SubnEngine) (root : Path) (fs : FS) (path : String)
    (repls : List Replacement) (createIfMissing : Bool) : ToolResult × FS :=
  let fp := resolveUnder root path
  if ¬ existsB root fs fp ∧ ¬ createIfMissing then
    (errResAt ("File not found") (safeRel root fp), fs)
  else if ¬ existsB root fs fp ∧ ¬ mkdirOk fs fp.dropLast then
    (errResAt ("mkdir failed") path, fs)
  else
    -- when absent (and creation allowed) an empty file is written first
    let fs₁ := if existsB root fs fp then fs else setFS fs fp ("")
    match lookupFS fs₁ fp with
    | none => (errResAt ("Cannot patch non-text or unreadable file")
                 (safeRel root fp), fs₁)
    | some content =>
      match applyRepls subn repls content 0 with
      | none => (errResAt ("Regex error") (safeRel root fp), fs₁)
      | some (current, totalEdits) =>
          let changed := decide (current ≠ content)
          let fs₂ := if current ≠ content then setFS fs₁ fp current else fs₁
          ({ ok := true, rpath := some (safeRel root fp),
             changed := some changed, edits := some totalEdits,
             bytes := some (utf8Len current) }, fs₂)

/-! ## Diagnostic parser & heuristic repairer (backend/app/services/compile_loop.py)

The three diagnostic regexes are embedded as explicit case-insensitive
scanners (`re.findall` scans left to right, resuming after each match;
the character classes involved contain no quote, so the greedy captures
need no backtracking).  Scanning fuel is the input length: every step
consumes at least one character. -/

def isPyWs (c : Char) : Bool :=
  c = ' ' || c = '\t' || c = '\n' || c = '\r' || c = '\x0b' || c = '\x0c'

/-- Case-insensitive literal match; returns the remainder on success. -/
def matchLitCI : List Char → List Char → Option (List Char)
  | s, [] => some s
  | [], _ :: _ => none
  | c :: cs, l :: ls => if c.toLower = l.toLower then matchLitCI cs ls else none

def skipPyWs : List Char → List Char
  | [] => []
  | c :: cs => if isPyWs c then skipPyWs cs else c :: cs

def quoteC : Char := '\x27'

/-- Greedy `[^']+` followed by the closing quote. -/
def captureToQuote : List Char → List Char → Option (String × List Char)
  | _, [] => none
  | acc, c :: cs =>
      if c = quoteC then
        if acc.isEmpty then none else some (String.mk acc.reverse, cs)
      else captureToQuote (c :: acc) cs

def uriLitStr : String := "Target of URI doesn\x27t exist:"

/-- One attempted match of `_MISSING_URI_RE` at the head of `s`. -/
def matchURIAt (s : List Char) : Option (String × List Char) :=
  match matchLitCI s uriLitStr.data with
  | none => none
  | some rest =>
      match skipPyWs rest with
      | [] => none
      | c :: cs => if c = quoteC then captureToQuote ([]) cs else none

def findURIsAux : Nat → List Char → List String
  | 0, _ => []
  | _ + 1, [] => []
  | fuel + 1, c :: cs =>
      match matchURIAt (c :: cs) with
      | some (cap, rest) => cap :: findURIsAux fuel rest
      | none => findURIsAux fuel cs

/-- `_MISSING_URI_RE.findall`. -/
def findURIs (s : String) : List String := findURIsAux s.data.length s.data

def isIdentStartC (c : Char) : Bool := c.isAlpha || c = '_'

def isIdentC (c : Char) : Bool := c.isAlphanum || c = '_'

/-- `[A-Za-z_][A-Za-z0-9_]*`, greedy. -/
def takeIdent : List Char → Option (String × List Char)
  | [] => none
  | c :: cs =>
      if isIdentStartC c then
        some (String.mk (c :: cs.takeWhile isIdentC), cs.dropWhile isIdentC)
      else none

def matchClassAlt2 (s : List Char) : Option ((String × String) × List Char) :=
  match matchLitCI s (("Undefined class \x27").data) with
  | none => none
  | some r1 =>
      match takeIdent r1 with
      | none => none
      | some (id, r2) =>
          match matchLitCI r2 (("\x27").data) with
          | none => none
          | some r3 => some ((("", id)), r3)

/-- One attempted match of `_MISSING_CLASS_RE` (two alternatives; findall
returns a pair of groups, the non-participating one empty). -/
def matchClassAt (s : List Char) : Option ((String × String) × List Char) :=
  match matchLitCI s (("The name \x27").data) with
  | none => matchClassAlt2 s
  | some r1 =>
      match takeIdent r1 with
      | none => matchClassAlt2 s
      | some (id, r2) =>
          match matchLitCI r2 (("\x27 isn\x27t a class").data) with
          | none => matchClassAlt2 s
          | some r3 => some (((id, "")), r3)

def findClassesAux : Nat → List Char → List (String × String)
  | 0, _ => []
  | _ + 1, [] => []
  | fuel + 1, c :: cs =>
      match matchClassAt (c :: cs) with
      | some (m, rest) => m :: findClassesAux fuel rest
      | none => findClassesAux fuel cs

/-- `_MISSING_CLASS_RE.findall`. -/
def findClasses (s : String) : List (String × String) :=
  findClassesAux s.data.length s.data

/-- One attempted match of `_UNDEFINED_METHOD_RE` at the head of `s`. -/
def matchMethodAt (s : List Char) : Bool :=
  match matchLitCI s (("The method \x27").data) with
  | none => false
  | some r1 =>
      match takeIdent r1 with
      | none => false
      | some (_, r2) =>
          match matchLitCI r2 (("\x27 isn\x27t defined for the type \x27").data) with
          | none => false
          | some r3 =>
              match takeIdent r3 with
              | none => false
              | some (_, r4) =>
                  match matchLitCI r4 (("\x27").data) with
                  | none => false
                  | some _ => true

def hasMethodAux : Nat → List Char → Bool
  | 0, _ => false
  | _ + 1, [] => false
  | fuel + 1, c :: cs =>
      if matchMethodAt (c :: cs) then true else hasMethodAux fuel cs

/-- `_UNDEFINED_METHOD_RE.search` (as a boolean; only its presence is
used). -/
def hasMethodDiag (s : String) : Bool := hasMethodAux s.data.length s.data

/-! ### Name mangling helpers of the repairer -/

def lastIdxAux (c : Char) : List Char → Nat → Option Nat → Option Nat
  | [], _, best => best
  | x :: xs, i, best => lastIdxAux c xs (i + 1) (if x = c then some i else best)

/-- `pathlib`'s `stem`: strip the suffix after the last dot, unless the
dot is leading or trailing. -/
def pyStem (name : String) : String :=
  match lastIdxAux ('.') name.data 0 none with
  | none => name
  | some i =>
      if 0 < i ∧ i < name.data.length - 1 then String.mk (name.data.take i)
      else name

/-- Python `str.capitalize()`: first character upper-cased, the rest
lower-cased (ASCII; captured identifiers only contain ASCII). -/
def pyCapitalize (s : String) : String :=
  match s.data with
  | [] => ""
  | c :: cs => String.mk (c.toUpper :: cs.map Char.toLower)

def strToLower (s : String) : String := String.mk (s.data.map Char.toLower)

/-- `_filename_to_class`. -/
def _filename_to_class (fname : String) : String :=
  ((splitChar ('_') (pyStem fname)).filter (fun p => !(p == ""))).foldl
    (fun acc p => acc ++ pyCapitalize p) ("")

/-! ### Stub contents (verbatim from the source f-strings) -/

def _widget_stub (name : String) : String :=
  ("import \x27package:flutter/material.dart\x27;\n\nclass ") ++ name ++
  (" extends StatelessWidget \x7b\n  const ") ++ name ++
  ("(\x7bsuper.key\x7d);\n  @override\n  Widget build(BuildContext context) \x7b\n    return Scaffold(\n      appBar: AppBar(title: const Text(\x27") ++
  name ++
  ("\x27)),\n      body: const Center(child: Text(\x27") ++ name ++
  (" placeholder\x27)),\n    );\n  \x7d\n\x7d\n")

def _class_stub (name : String) : String :=
  ("class ") ++ name ++ (" \x7b const ") ++ name ++ ("(); \x7d\n")

def smokeContent : String :=
  ("import \x27package:flutter_test/flutter_test.dart\x27;\n\nvoid main() \x7b\n  test(\x27smoke\x27, () \x7b\n    expect(1 + 1, 2);\n  \x7d);\n\x7d\n")

/-! ### Path clamping and file materialisation -/

/-- `_safe_under`: resolve the desired path; when it escapes the base,
fall back to `base / fallback_rel` instead. -/
def _safe_under (base : Path) (desired : List String) (fallbackRel : String) :
    Path :=
  if isWithinB base (normalize desired) then normalize desired
  else normalize (base ++ pyParts fallbackRel)

/-- `st_size` of an existing path: byte length for files, the directory
size for directories (4096 on ext4; only `≥ 40` matters to the code). -/
def DIR_SIZE : Nat := 4096

/-- `_make_file`: create a missing file, overwrite a trivially small one
(`st_size < 40`), keep anything else.  `.error` models the `OSError` of
`mkdir` hitting a regular file; the overwrite branch is unreachable for
directories because `DIR_SIZE ≥ 40`. -/
def _make_file (appDir : Path) (fs : FS) (p : Path) (content : String) :
    Except Unit (FS × String) :=
  if ¬ mkdirOk fs p.dropLast then .error ()
  else if ¬ existsB appDir fs p then
    .ok (setFS fs p content, ("created ") ++ renderPath p)
  else if isFileB fs p then
    if utf8Len ((lookupFS fs p).getD ("")) < 40 then
      .ok (setFS fs p content, ("filled ") ++ renderPath p)
    else .ok (fs, ("kept ") ++ renderPath p)
  else .ok (fs, ("kept ") ++ renderPath p)

/-- The text after the first separator (`uri.split("/", 1)[1]`); `none`
models the `IndexError` when there is no separator. -/
def afterFirstSlash : List Char → Option (List Char)
  | [] => none
  | c :: cs => if c = '/' then some cs else afterFirstSlash cs

/-- `_guess_path_from_uri`. -/
def _guess_path_from_uri (appDir origin : Path) (uri : String) : Option Path :=
  let libDir := appDir ++ ["lib"]
  if strStarts uri ("dart:") || strStarts uri ("package:flutter") then none
  else if strStarts uri ("package:") then
    match afterFirstSlash uri.data with
    | none => none
    | some rest =>
        let after := String.mk rest
        some (_safe_under appDir (libDir ++ pyParts after)
          (("lib/shared/autofix/") ++ pathName after))
  else
    let anchor :=
      if strStarts (renderPath origin) (renderPath libDir) then origin
      else libDir
    let desired := if pyIsAbs uri then pyParts uri else anchor ++ pyParts uri
    some (_safe_under appDir desired (("lib/shared/autofix/") ++ pathName uri))

/-! ### `_apply_fixes` -/

def routerPath (appDir : Path) : Path :=
  appDir ++ ["lib", "core", "routing", "app_router.dart"]

def testsDirPath (appDir : Path) : Path := appDir ++ ["test"]

def smokePath (appDir : Path) : Path := appDir ++ ["test", "smoke_test.dart"]

structure FixStep where
  target : Path
  content : String
  deriving Repr, DecidableEq

/-- The materialisation step for one missing-URI diagnostic (target, stub
content and the extra clamp of the source). -/
def uriStep (appDir origin : Path) (uri : String) : Option FixStep :=
  match _guess_path_from_uri appDir origin uri with
  | none => none
  | some proto =>
      let cls := _filename_to_class (pathName uri)
      let target := _safe_under appDir proto
        (("lib/shared/autofix/") ++ pathName uri)
      some { target := target,
             content :=
               if strEnds (target.getLastD ("")) ("_view.dart") then
                 _widget_stub cls
               else _class_stub cls }

/-- The materialisation step for one missing-class diagnostic. -/
def classStep (appDir : Path) (cls : String) : FixStep :=
  let stubPath := normalize (appDir ++ ["lib", "shared", "autofix",
    strToLower cls ++ (".dart")])
  { target := _safe_under appDir stubPath
      (("lib/shared/autofix/") ++ (strToLower cls ++ (".dart"))),
    content := _class_stub cls }

/-- All `_make_file` calls of parts 1 and 2, in source order.  The targets
depend only on `appDir`, the chosen `origin` and the diagnostic text. -/
def fixSteps (appDir origin : Path) (txt : String) : List FixStep :=
  ((findURIs txt).filterMap (uriStep appDir origin)) ++
  ((findClasses txt).filterMap (fun m =>
      let cls := if m.1 ≠ "" then m.1 else m.2
      if cls = "" then none else some (classStep appDir cls)))

def runSteps (appDir : Path) : List FixStep → FS → Except Unit (FS × List String)
  | [], fs => .ok (fs, [])
  | s :: ss, fs =>
      match _make_file appDir fs s.target s.content with
      | .error _ => .error ()
      | .ok (fs₁, d) =>
          match runSteps appDir ss fs₁ with
          | .error _ => .error ()
          | .ok (fs₂, ds) => .ok (fs₂, d :: ds)

def methodNote : String :=
  ("note: undefined method(s) detected; not auto-fixed (safety)")

/-- Part 4 of `_apply_fixes`: guarantee the smoke test exists. -/
def smokePart (appDir : Path) (fs : FS) : Except Unit (FS × List String) :=
  if ¬ existsB appDir fs (testsDirPath appDir)
      ∧ ¬ mkdirOk fs (testsDirPath appDir) then .error ()
  else if existsB appDir fs (smokePath appDir) then .ok (fs, [])
  else if isFileB fs (testsDirPath appDir) then .error ()
  else .ok (setFS fs (smokePath appDir) smokeContent,
            [("created ") ++ renderPath (smokePath appDir)])

/-- The probable origin: `app_router.dart` when it exists, else `lib/`
(the second probable origin and the `next(...)` default coincide). -/
def originOf (appDir : Path) (fs : FS) : Path :=
  if existsB appDir fs (routerPath appDir) then routerPath appDir
  else appDir ++ ["lib"]

/-- `_apply_fixes`.  `.error` models an escaping `OSError`. -/
def _apply_fixes (appDir : Path) (fs : FS) (txt : String) :
    Except Unit (FS × List String) :=
  match runSteps appDir (fixSteps appDir (originOf appDir fs) txt) fs with
  | .error _ => .error ()
  | .ok (fs₁, ds) =>
      let ds := ds ++ (if hasMethodDiag txt then [methodNote] else [])
      match smokePart appDir fs₁ with
      | .error _ => .error ()
      | .ok (fs₂, ds₂) => .ok (fs₂, (ds ++ ds₂).filter (fun d => !(d == "")))

/-! ### Proof-support definitions for the repairer -/

def exOk {ε α : Type} : Except ε α → Bool
  | .ok _ => true
  | .error _ => false

/-- The effect of one `_make_file` call on a path that already exists:
small files are overwritten, everything else is kept. -/
def cStep (T : FS) (s : FixStep) : FS :=
  if isFileB T s.target && decide (utf8Len ((lookupFS T s.target).getD ("")) < 40)
  then setFS T s.target s.content else T

/-- Per-path content dynamics of `_make_file` (first pass: an absent path
is created). -/
def stepPc (v : Option String) (c : String) : Option String :=
  match v with
  | none => some c
  | some w => if utf8Len w < 40 then some c else some w

/-- Per-path content dynamics of `cStep` (second pass: an absent path
stays absent). -/
def stepCc (v : Option String) (c : String) : Option String :=
  match v with
  | none => none
  | some w => if utf8Len w < 40 then some c else some w

def keysOf (fs : FS) : List Path := fs.map (fun e => e.1)

/-- The materialisation steps of a pass that target path `q`, in order. -/
def contentsAt (q : Path) (ss : List FixStep) : List String :=
  (ss.filter (fun s => s.target == q)).map (fun s => s.content)

/-- A step whose target already exists with no regular file on the chain
of parent directories: exactly the situation of every step during a
second pass. -/
def StepOkAt (appDir : Path) (fs : FS) (s : FixStep) : Prop :=
  existsB appDir fs s.target = true ∧ mkdirOk fs s.target.dropLast = true

/-- A resolved path: no `..` components (what `Path.resolve()` outputs;
`run_compile_loop` resolves `app_dir` before any use). -/
def noDD (p : Path) : Bool := p.all (fun c => !(c == ".."))

/-- C3 counterexample diagnostic text: the first URI creates the probable
origin file `lib/core/routing/app_router.dart`; the second is a relative
URI whose anchor therefore changes between the passes. -/
def cexDiag : String :=
  ("Target of URI doesn\x27t exist: \x27package:app/core/routing/app_router.dart\x27\nTarget of URI doesn\x27t exist: \x27../x.dart\x27")

def cexPass1 : FS :=
  match _apply_fixes (["app"]) ([]) cexDiag with
  | .ok (f, _) => f
  | .error _ => []

def cexPass2 : FS :=
  match _apply_fixes (["app"]) cexPass1 cexDiag with
  | .ok (f, _) => f
  | .error _ => []

/-- C3 witness diagnostic: a single relative URI; the first pass does not
create the probable-origin file, so the stability hypothesis holds. -/
def wDiag : String := ("Target of URI doesn\x27t exist: \x27x.dart\x27")

def wPass1 : FS × List String :=
  match _apply_fixes (["app"]) ([]) wDiag with
  | .ok pr => pr
  | .error _ => ([], [])

/-! ## Remaining read-only tools (fs_map, fs_glob, fs_diff)

These three tools never modify the filesystem; their outputs are consumed
only by the conversation log and the diff preview.  Listing order is an
insertion sort by rendered path (the source sorts per directory level;
only the diff summary's header and the non-mutation of the filesystem are
relied upon by any theorem). -/

def _IGNORE_NAMES : List String := ["__pycache__", ".git", ".venv", "node_modules"]

def ignoredName (n : String) : Bool :=
  _IGNORE_NAMES.contains n || strStarts n (".")

def charsLe : List Char → List Char → Bool
  | [], _ => true
  | _ :: _, [] => false
  | a :: as, b :: bs => if a = b then charsLe as bs else decide (a.val < b.val)

def strLe (a b : String) : Bool := charsLe a.data b.data

def pathLe (a b : Path) : Bool := strLe (joinSlash a) (joinSlash b)

def insertBy {α : Type} (le : α → α → Bool) (x : α) : List α → List α
  | [] => [x]
  | y :: ys => if le x y then x :: y :: ys else y :: insertBy le x ys

def sortBy {α : Type} (le : α → α → Bool) (l : List α) : List α :=
  l.foldr (insertBy le) []

/-- Relative components of `p` under `base`, when `p` lies below it. -/
def relUnder (base p : Path) : Option (List String) :=
  if isWithinB base p then some (p.drop base.length) else none

/-- `fs_map`. -/
def fs_mapRes (root : Path) (fs : FS) (mroot : String) (maxDepth : Nat)
    (includeContent : Bool) : ToolResult :=
  let base := resolveUnder root mroot
  if ¬ existsB root fs base then
    { ok := true, rpath := some (safeRel root base), entries := some [] }
  else
    let rels := fs.filterMap (fun e =>
      match relUnder base e.1 with
      | some r => if r ≠ [] then some (r, e.2) else none
      | none => none)
    let visible := rels.filter (fun rc =>
      decide (rc.1.length ≤ maxDepth + 1) && rc.1.all (fun n => !(ignoredName n)))
    let dirRels := (visible.foldr (fun rc acc =>
      (rc.1.dropLast.inits.filter (fun q => !(q.isEmpty))) ++ acc) []).dedup
    let dirEntries := (sortBy pathLe dirRels).map (fun r =>
      ({ mpath := safeRel root (base ++ r), etype := ("dir") } : MapEntry))
    let fileEntries := (sortBy (fun a b => pathLe a.1 b.1) visible).map
      (fun rc =>
        let size := utf8Len rc.2
        ({ mpath := safeRel root (base ++ rc.1), etype := ("file"),
           size := some size,
           content := if includeContent ∧ size ≤ 65536 then some rc.2
                      else none } : MapEntry))
    { ok := true, rpath := some (safeRel root base),
      entries := some (dirEntries ++ fileEntries) }

/-- `fs_map` never writes; the filesystem is returned unchanged. -/
def fs_map (root : Path) (fs : FS) (mroot : String) (maxDepth : Nat)
    (includeContent : Bool) : ToolResult × FS :=
  (fs_mapRes root fs mroot maxDepth includeContent, fs)

/-! ### Glob matching (pathlib `Path.glob` semantics: `*`/`?` within a
component, `**` spans zero or more directory components).  Fuel-based so
the kernel can evaluate it; the fuel is an upper bound on the number of
recursion steps, each of which shortens the combined input. -/

def compMatchF : Nat → List Char → List Char → Bool
  | 0, _, _ => false
  | _ + 1, [], [] => true
  | _ + 1, [], _ :: _ => false
  | f + 1, c :: ps, s =>
      if c = '*' then
        compMatchF f ps s
          || (match s with
              | [] => false
              | _ :: s' => compMatchF f (c :: ps) s')
      else
        match s with
        | [] => false
        | d :: s' => (c = '?' || c = d) && compMatchF f ps s'

def compMatch (p s : List Char) : Bool :=
  compMatchF (p.length + s.length + 1) p s

def globMatchF : Nat → List String → List String → Bool
  | 0, _, _ => false
  | _ + 1, [], [] => true
  | _ + 1, [], _ :: _ => false
  | f + 1, p :: ps, comps =>
      if p = "**" then
        globMatchF f ps comps
          || (match comps with
              | [] => false
              | _ :: cs => globMatchF f (p :: ps) cs)
      else
        match comps with
        | [] => false
        | c :: cs => compMatch p.data c.data && globMatchF f ps cs

def globMatch (pats comps : List String) : Bool :=
  globMatchF (pats.length + comps.length + 1) pats comps

/-- Candidate relative paths under the root: every file and every
intermediate directory. -/
def globCandidates (root : Path) (fs : FS) : List (List String) :=
  ((fs.filterMap (fun e => relUnder root e.1)).foldr
    (fun r acc => r.inits.filter (fun q => !(q.isEmpty)) ++ acc) []).dedup

/-- `fs_glob`. -/
def fs_globRes (root : Path) (fs : FS) (pattern : String) (maxMatches : Nat) :
    ToolResult :=
  if pattern = "" then errRes ("Unacceptable pattern")
  else
    let pats := (splitChar ('/') pattern).filter (fun c => !(c == ""))
    let ms := (globCandidates root fs).filter (fun c => globMatch pats c)
    { ok := true, matchesL := some ((ms.take maxMatches).map joinSlash) }

/-- `fs_glob` never writes; the filesystem is returned unchanged. -/
def fs_glob (root : Path) (fs : FS) (pattern : String) (maxMatches : Nat) :
    ToolResult × FS :=
  (fs_globRes root fs pattern maxMatches, fs)

def joinWith (sep : String) : List String → String
  | [] => ""
  | [x] => x
  | x :: xs => x ++ sep ++ joinWith sep xs

def pyTakeLast (s : String) (n : Nat) : String :=
  if n = 0 then s else String.mk (s.data.drop (s.data.length - n))

/-- Byte-size stand-in for `len(json.dumps(out))`: the summary occurs four
times in the payload and every file preview once. -/
def diffBlobLen (summary : String) (items : List (Path × Nat × Option String)) :
    Nat :=
  4 * utf8Len summary + 64
    + items.foldl (fun n it => n + 32 + (it.2.2.map utf8Len).getD 0) 0

/-- `fs_diff`. -/
def fs_diff (root : Path) (fs : FS) (paths : Option (List String))
    (unified : Bool) (maxBytes : Nat) : ToolResult × FS :=
  let scanPaths := paths.getD (["backend", "workspace"])
  let targets := scanPaths.foldr (fun p acc =>
    let tp := resolveUnder root p
    if ¬ existsB root fs tp then acc
    else if isDirB root fs tp then
      (fs.filterMap (fun e =>
        if isWithinB tp e.1 && !(ignoredName (e.1.getLastD (""))) then
          some e.1
        else none)) ++ acc
    else tp :: acc) []
  let targets := sortBy pathLe targets.dedup
  let items := targets.filterMap (fun p =>
    match lookupFS fs p with
    | none => none
    | some c =>
        let size := utf8Len c
        some (p, size, if size ≤ 48000 then some c else none))
  let total := items.foldl (fun n it => n + it.2.1) 0
  let lines := [("# Snapshot summary"),
    ("- Files counted: ") ++ toString items.length,
    ("- Total bytes (approx): ") ++ toString total, ("")]
    ++ (items.take 200).map (fun it =>
        ("* ") ++ safeRel root it.1 ++ (" (") ++ toString it.2.1 ++ (" bytes)"))
  let summary := joinWith ("\n") lines
  let capped :=
    if diffBlobLen summary items > maxBytes then pyTakeLast summary (maxBytes / 2)
    else summary
  ({ ok := true, count := some items.length, size := some total,
     summary := some summary, unified := if unified then some capped else none,
     diff := some capped, text := some capped }, fs)

/-! ## Tool dispatcher and agent loop (agent_service.py)

The Text-Generation Client is abstracted as a script indexed by the turn
number: for any actual client, the responses realised over one run form
such a script, so properties quantified over all scripts cover all
clients.  A response's `latency` is the total duration of the
`_chat_with_retries` call; `asyncio.wait_for` aborts it at the computed
per-turn timeout.  SSE progress publishing and the conversation message
list have no effect on the filesystem, the tool log or the report fields
below and are not tracked. -/

structure ToolArgs where
  path : Option String := none
  content : Option String := none
  mode : Option String := none
  root : Option String := none
  max_depth : Option Nat := none
  include_content : Option Bool := none
  pattern : Option String := none
  max_matches : Option Nat := none
  max_bytes : Option Nat := none
  exist_ok : Option Bool := none
  parents : Option Bool := none
  recursive : Option Bool := none
  paths : Option (List String) := none
  unified : Option Bool := none
  replacements : Option (List Replacement) := none
  create_if_missing : Option Bool := none
  deriving Repr, DecidableEq

def argErr (name : String) : ToolResult :=
  { ok := false, error := some (("Invalid arguments for ") ++ name) }

/-- `dispatch_tool_call`: route by name, defaulting optional arguments as
the Python signatures do; a missing required argument is the `TypeError`
branch; an unknown name reports "Unknown tool". -/
def dispatch_tool_call (subn : SubnEngine) (root : Path) (fs : FS)
    (name : String) (args : ToolArgs) : ToolResult × FS :=
  if name = "fs_map" then
    fs_map root fs (args.root.getD (".")) (args.max_depth.getD 4)
      (args.include_content.getD false)
  else if name = "fs_glob" then
    match args.pattern with
    | none => (argErr name, fs)
    | some pat => fs_glob root fs pat (args.max_matches.getD 2000)
  else if name = "fs_read" then
    match args.path with
    | none => (argErr name, fs)
    | some p => fs_read root fs p (args.max_bytes.getD 200000)
  else if name = "fs_write" then
    match args.path, args.content with
    | some p, some c => fs_write root fs p c (args.mode.getD ("w"))
    | _, _ => (argErr name, fs)
  else if name = "fs_mkdir" then
    match args.path with
    | none => (argErr name, fs)
    | some p => fs_mkdir root fs p (args.exist_ok.getD true) (args.parents.getD true)
  else if name = "fs_delete" then
    match args.path with
    | none => (argErr name, fs)
    | some p => fs_delete root fs p (args.recursive.getD true)
  else if name = "fs_diff" then
    fs_diff root fs args.paths (args.unified.getD true) (args.max_bytes.getD 120000)
  else if name = "fs_patch" then
    match args.path with
    | none => (argErr name, fs)
    | some p => fs_patch subn root fs p (args.replacements.getD []) (args.create_if_missing.getD true)
  else ({ ok := false, error := some (("Unknown tool: ") ++ name) }, fs)

structure ToolCallReq where
  cid : String := ""
  name : String
  args : ToolArgs := {}
  deriving Repr, DecidableEq

structure ModelResponse where
  latency : ℚ := 0
  toolCalls : List ToolCallReq := []
  text : String := ""

structure LogEntry where
  name : String
  args : ToolArgs := {}
  result : ToolResult
  deriving Repr, DecidableEq

inductive ExitReason
  | capReached
  | budgetExhausted
  | turnTimeout
  | declaredDone
  deriving Repr, DecidableEq

structure AgentState where
  t : ℚ
  fs : FS
  log : List LogEntry
  touched : List String
  calls : Nat

structure AgentCfg where
  budget : ℚ := 60
  turnTimeout : ℚ := 20
  validateOnly : Bool := false

def WRITEY : List String := ["fs_write", "fs_patch", "fs_mkdir", "fs_delete"]

def pyStrip (s : String) : String :=
  String.mk (((s.data.dropWhile isPyWs).reverse.dropWhile isPyWs).reverse)

def pyUpper (s : String) : String := String.mk (s.data.map Char.toUpper)

def isDoneText (s : String) : Bool := strStarts (pyUpper (pyStrip s)) ("DONE:")

/-- Python's `a or b` on optional strings (an empty string is falsy). -/
def pyOrStr : Option String → Option String → Option String
  | some s, b => if s = "" then b else some s
  | none, b => b

def pickTouched (a : ToolArgs) : Option String :=
  pyOrStr a.path (pyOrStr a.pattern (pyOrStr a.root none))

/-- Python `max(a, b)` / `min(a, b)` on rationals (the first argument wins
ties, which is invisible on a total order). -/
def pyMax (a b : ℚ) : ℚ := if a ≤ b then b else a

def pyMin (a b : ℚ) : ℚ := if b ≤ a then b else a

/-- Rational addition and subtraction written out on numerators and
denominators (equal to `+` and `-` by `Rat.add_def'`/`Rat.sub_def'`). -/
def qAdd (a b : ℚ) : ℚ := mkRat (a.num * b.den + b.num * a.den) (a.den * b.den)

def qSub (a b : ℚ) : ℚ := mkRat (a.num * b.den - b.num * a.den) (a.den * b.den)

/-- `min(configured per-turn timeout, remaining - safety margin)` with the
1-second floors of the source. -/
def perTurnBudget (turnTimeout remaining : ℚ) : ℚ :=
  pyMax 1 (pyMin turnTimeout (pyMax 1 (qSub remaining 1)))

def skippedResult : ToolResult :=
  { ok := true, skipped := true, reason := some ("validate_only") }

/-- Execute the tool calls of one assistant turn. -/
def execCalls (subn : SubnEngine) (root : Path) (validateOnly : Bool) :
    List ToolCallReq → AgentState → AgentState
  | [], st => st
  | tc :: rest, st =>
      let rf :=
        if validateOnly ∧ tc.name ∈ WRITEY then (skippedResult, st.fs)
        else dispatch_tool_call subn root st.fs tc.name tc.args
      let touched' :=
        if ¬ validateOnly ∧ tc.name ∈ WRITEY then
          match pickTouched tc.args with
          | some p => st.touched ++ [p]
          | none => st.touched
        else st.touched
      execCalls subn root validateOnly rest
        { st with
          fs := rf.2,
          log := st.log ++ [{ name := tc.name, args := tc.args, result := rf.1 }],
          touched := touched' }

def logE (n : String) (a : ToolArgs) (r : ToolResult) : LogEntry :=
  { name := n, args := a, result := r }

def timeoutEntry : LogEntry :=
  { name := ("model_call_timeout"),
    result := { ok := false, error := some ("chat.completions timeout") } }

/-- The bounded turn loop (`for step in range(1, loop_steps + 1)`), fuel =
remaining turns.  A call lasting longer than the per-turn budget is
aborted by `asyncio.wait_for` after exactly that budget. -/
def runTurns (subn : SubnEngine) (root : Path) (cfg : AgentCfg)
    (script : Nat → ModelResponse) :
    Nat → Nat → AgentState → AgentState × ExitReason
  | 0, _, st => (st, .capReached)
  | fuel + 1, step, st =>
      let remaining := pyMax 0 (qSub cfg.budget st.t)
      if remaining ≤ 0 then (st, .budgetExhausted)
      else
        let ptb := perTurnBudget cfg.turnTimeout remaining
        let resp := script step
        if resp.latency > ptb then
          ({ st with
             t := qAdd st.t ptb, calls := st.calls + 1,
             log := st.log ++ [timeoutEntry] }, .turnTimeout)
        else
          let st' := { st with t := qAdd st.t resp.latency, calls := st.calls + 1 }
          if resp.toolCalls ≠ [] then
            runTurns subn root cfg script fuel (step + 1)
              (execCalls subn root cfg.validateOnly resp.toolCalls st')
          else if isDoneText resp.text then (st', .declaredDone)
          else runTurns subn root cfg script fuel (step + 1) st'

/-! ### Finalization (the `finally` block) -/

def lastRunPath (root : Path) : Path :=
  root ++ ["workspace", ".omega", "last_run.json"]

/-- `_extract_diff_preview` over the reversed log (the keys `patch` and
`output` are never set by any tool and are omitted). -/
def extractAux : List LogEntry → Option String
  | [] => none
  | e :: rest =>
      if e.name = "fs_diff" then
        let res := e.result
        let candidate := (pyOrStr res.diff (pyOrStr res.content (pyOrStr
          res.text (pyOrStr res.unified (pyOrStr res.summary none))))).getD ("")
        let out := if pyStrip candidate ≠ "" then candidate
                   else ("\x7b ok: ") ++ (if res.ok then ("true") else ("false"))
                        ++ (" \x7d")   -- stand-in for json.dumps(res, indent=2)
        some (if out.data.length > 4000 then pyTakeLast out 4000 else out)
      else extractAux rest

def _extract_diff_preview (log : List LogEntry) : Option String :=
  extractAux log.reverse

def beforeFirstSlash (s : String) : String :=
  String.mk (s.data.takeWhile (fun c => !(c == '/')))

def sortedSet (l : List String) : List String := sortBy strLe l.dedup

/-- The summary string of the run (no quality tag: the quality-gate import
`backend.app.core.quality_gate` does not resolve in this repository, so
`_run_quality_gate is None` and the gate result is `None`). -/
def buildSummary (touched : List String) : String :=
  let uniq := sortedSet (touched.filter (fun p => !(p == "")))
  if uniq ≠ [] then
    ("DONE: Updated files/folders -> ") ++ joinWith (", ") (uniq.take 12)
      ++ (if uniq.length > 12 then ("...") else (""))
  else ("DONE: Agent run completed.")

/-- A concrete rendering of the persisted last-run record (a stand-in for
`json.dumps` of the payload; the tool log is trimmed to its last 200
entries). -/
def renderLastRun (jobId summary : String) (diffPreview : Option String)
    (log : List LogEntry) (validateOnly : Bool) : String :=
  ("\x7b job_id: ") ++ jobId ++ (", summary: ") ++ summary
    ++ (", diff_preview: ") ++ diffPreview.getD ("null")
    ++ (", tool_log_entries: ") ++ toString ((log.drop (log.length - 200)).length)
    ++ (", validate_only: ") ++ (if validateOnly then ("true") else ("false"))
    ++ (" \x7d")

/-- `_persist_last_run`: best effort — an OSError while creating
`workspace/.omega` or opening the record is swallowed. -/
def persistLastRun (root : Path) (fs : FS) (content : String) : FS :=
  if ¬ mkdirOk fs (root ++ ["workspace", ".omega"]) then fs
  else if isDirB root fs (lastRunPath root) then fs
  else setFS fs (lastRunPath root) content

structure AgentReport where
  jobId : String
  summary : String
  toolLog : List LogEntry
  diffPreview : Option String
  fs : FS
  calls : Nat
  exit : ExitReason
  elapsed : ℚ

/-- `adapt_repository_with_agent`: boot, the bounded turn loop, then the
mandatory finalization (inventory globs, a final `fs_diff` when none
occurred, the summary, and the persisted last-run record).  The returned
record carries the report fields plus the observations (final filesystem,
model-call count, exit reason, elapsed loop time) the theorems speak
about. -/
def adapt_repository_with_agent (subn : SubnEngine) (root : Path)
    (jobId : String) (cfg : AgentCfg) (script : Nat → ModelResponse)
    (fs₀ : FS) : AgentReport :=
  let st₀ : AgentState := { t := 0, fs := fs₀, log := [], touched := [], calls := 0 }
  let res := runTurns subn root cfg script 13 1 st₀
  let st := res.1
  -- finalization: quick existence checks
  let g1 := dispatch_tool_call subn root st.fs ("fs_glob")
    { pattern := some ("workspace/**/*"), max_matches := some 2000 }
  let st := { st with
    fs := g1.2,
    log := st.log ++
      [logE ("fs_glob")
        { pattern := some ("workspace/**/*"), max_matches := some 2000 } g1.1] }
  let g2 := dispatch_tool_call subn root st.fs ("fs_glob")
    { pattern := some ("backend/**/*.py"), max_matches := some 2000 }
  let st := { st with
    fs := g2.2,
    log := st.log ++
      [logE ("fs_glob")
        { pattern := some ("backend/**/*.py"), max_matches := some 2000 } g2.1] }
  -- ensure a final diff snapshot exists
  let st :=
    if st.log.any (fun e => e.name == ("fs_diff")) then st
    else
      let uniq := sortedSet (st.touched.filter (fun p => !(p == "")))
      let heads := uniq.filterMap (fun p =>
        let h := beforeFirstSlash p
        if h ≠ "" then some h else none)
      let cand := if heads = [] then ["workspace", "backend"] else heads
      let cand := sortedSet cand
      let d := dispatch_tool_call subn root st.fs ("fs_diff")
        { paths := some cand }
      { st with
        fs := d.2,
        log := st.log ++ [logE ("fs_diff") { paths := some cand } d.1] }
  -- quality gate: `_run_quality_gate is None` in this repository
  let summary := buildSummary st.touched
  let diffPreview := _extract_diff_preview st.log
  let fsP := persistLastRun root st.fs
    (renderLastRun jobId summary diffPreview st.log cfg.validateOnly)
  { jobId := jobId, summary := summary, toolLog := st.log,
    diffPreview := diffPreview, fs := fsP, calls := st.calls,
    exit := res.2, elapsed := st.t }

/-! ## Idle-aware test runner (compile_loop.py, `_run_test_machine`)

The child process is modelled as a timed trace: each stream carries its
pending `(available-at, line)` pairs plus the instant it reaches EOF
(`none` = the pipe never closes), and `exitAt` is the instant `poll()`
starts reporting an exit code.  `readline()` is the blocking call of the
source: it returns the next complete line once available, returns `""`
instantly after EOF, and **never returns** on an open stream with no
pending line (`none` below).  Time is in discrete ticks from `t0 = 0`;
the `time.sleep(0.05)` at the bottom of the loop advances one tick. -/

structure StreamState where
  lines : List (Nat × String)
  eofAt : Option Nat
  deriving Repr, DecidableEq

def readlineAt (t : Nat) (s : StreamState) :
    Option (String × Nat × StreamState) :=
  match s.lines with
  | (ta, l) :: rest => some (l, max t ta, { s with lines := rest })
  | [] =>
      match s.eofAt with
      | some te => some (("", max t te, s))
      | none => none

/-- `proc.stdout.read()` after the child exited: whatever is still
buffered. -/
def drain (s : StreamState) : String :=
  (s.lines.map (fun e => e.2)).foldl (fun a b => a ++ b) ("")

def pollExited (exitAt : Option Nat) (t : Nat) : Bool :=
  match exitAt with
  | some te => decide (te ≤ t)
  | none => false

structure RunState where
  t : Nat
  lastAct : Nat
  out : StreamState
  err : StreamState
  outAcc : String
  errAcc : String
  deriving Repr, DecidableEq

inductive RunOutcome where
  | finished (rc : Nat) (stdout stderr : String)
  | blocked
  | fuelOut
  deriving Repr, DecidableEq

/-- The watchdog loop of `_run_test_machine`.  One fuel unit per loop
iteration; `.blocked` records that a `readline()` call never returns, so
the `while True` body — including both kill checks — is never reached
again. -/
def _run_test_machine (exitAt : Option Nat) (exitCode : Nat)
    (hardTimeout watchdogIdle : Nat) : Nat → RunState → RunOutcome
  | 0, _ => .fuelOut
  | fuel + 1, st =>
      match readlineAt st.t st.out with
      | none => .blocked
      | some (ol, t1, out') =>
          match readlineAt t1 st.err with
          | none => .blocked
          | some (el, t2, err') =>
              let lastAct := if ol ≠ "" ∨ el ≠ "" then t2 else st.lastAct
              let outAcc := st.outAcc ++ ol
              let errAcc := st.errAcc ++ el
              if pollExited exitAt t2 then
                .finished exitCode (outAcc ++ drain out') (errAcc ++ drain err')
              else if t2 - lastAct > watchdogIdle then
                .finished 124 outAcc
                  (errAcc ++ ("\n[watchdog] test runner idle > ")
                    ++ toString watchdogIdle ++ ("s; killed"))
              else if t2 > hardTimeout then
                .finished 124 outAcc
                  (errAcc ++ ("\n[timeout] test run exceeded ")
                    ++ toString hardTimeout ++ ("s; killed"))
              else
                _run_test_machine exitAt exitCode hardTimeout watchdogIdle fuel
                  { t := t2 + 1, lastAct := lastAct, out := out', err := err',
                    outAcc := outAcc, errAcc := errAcc }

/-- The boot state of a run: clock at `t0 = 0`, nothing read yet. -/
def runBoot (out err : StreamState) : RunState :=
  { t := 0, lastAct := 0, out := out, err := err, outAcc := (""), errAcc := ("") }

/-- A child that never writes, never closes its pipes and never exits — the
archetypal hung watcher. -/
def silentStream : StreamState := { lines := [], eofAt := none }

/-- Every mutating tool call recorded in the log was answered
`ok = true, skipped = true` (the validate-only contract). -/
def WriteySkipped (l : List LogEntry) : Prop :=
  ∀ e ∈ l, e.name ∈ WRITEY →
    e.result.ok = true ∧ e.result.skipped = true

/-! ### Concrete instances used in closed statements -/

/-- A `re.subn` engine on which every pattern raises `re.error`. -/
def subnNone : SubnEngine := fun _ _ _ _ => none

def writeArgsA : ToolArgs :=
  { path := some ("workspace/a.txt"), content := some ("hi") }

/-- A client script that requests one `fs_write` on its first turn and then
declares completion. -/
def scriptWriteThenDone : Nat → ModelResponse := fun n =>
  if n = 1 then
    { toolCalls := [{ cid := ("c1"), name := ("fs_write"), args := writeArgsA }] }
  else { text := ("DONE: ok") }

/-- A client script with zero tool calls, no terminal sentinel and zero
latency. -/
def scriptSilent : Nat → ModelResponse := fun _ => { latency := 0 }

/-! ## Progress bus (backend/app/core/progress.py)

The bus keeps one `asyncio.Queue` per subscriber (bounded by
`max_queue_size`; `asyncio` treats `maxsize = 0` as unbounded).  `publish`
fans the payload out with `put_nowait`; on `QueueFull` it drops that
subscriber's oldest buffered item (`get_nowait`) and retries the put.  The
payload type is a parameter (it is `event.to_dict()`, an opaque JSON
dict). -/

def publishOne {α : Type} (cap : Nat) (x : α) (q : List α) : List α :=
  if cap = 0 ∨ q.length < cap then q ++ [x]
  else
    match q with
    | [] => q              -- get_nowait on an empty queue raises: skipped
    | _ :: t => t ++ [x]   -- drop one (the oldest), then put succeeds

def busPublish {α : Type} (cap : Nat) (subs : List (List α)) (x : α) :
    List (List α) :=
  subs.map (publishOne cap x)

/-! ## Helper lemmas -/

theorem qAdd_eq (a b : ℚ) : qAdd a b = a + b := (Rat.add_def' a b).symm

theorem qSub_eq (a b : ℚ) : qSub a b = a - b := (Rat.sub_def' a b).symm

theorem pyMax_le {a b c : ℚ} (h₁ : a ≤ c) (h₂ : b ≤ c) : pyMax a b ≤ c := by
  unfold pyMax; split <;> assumption

theorem le_pyMax_left (a b : ℚ) : a ≤ pyMax a b := by
  unfold pyMax; split
  · assumption
  · exact le_refl a

theorem le_pyMax_right (a b : ℚ) : b ≤ pyMax a b := by
  unfold pyMax; split
  · exact le_refl b
  · exact le_of_not_le (by assumption)

theorem pyMin_le_left (a b : ℚ) : pyMin a b ≤ a := by
  unfold pyMin; split
  · assumption
  · exact le_refl a

theorem pyMax_eq_right {a b : ℚ} (h : a ≤ b) : pyMax a b = b := by
  unfold pyMax; exact if_pos h

theorem pyMax_pos_of {a b : ℚ} (h : 0 < pyMax a b) (ha : ¬ 0 < a) : 0 < b := by
  by_contra hb
  unfold pyMax at h
  rcases (em (a ≤ b)) with hc | hc
  · rw [if_pos hc] at h; exact hb h
  · rw [if_neg hc] at h; exact ha h

theorem perTurnBudget_le (tt r : ℚ) :
    perTurnBudget tt r ≤ pyMax 1 tt := by
  unfold perTurnBudget
  exact pyMax_le (le_pyMax_left 1 tt)
    (le_trans (pyMin_le_left tt _) (le_pyMax_right 1 tt))

theorem one_le_perTurnBudget (tt r : ℚ) : 1 ≤ perTurnBudget tt r :=
  le_pyMax_left 1 _

theorem fs_map_snd (root : Path) (fs : FS) (r : String) (d : Nat) (ic : Bool) :
    (fs_map root fs r d ic).2 = fs := rfl

theorem fs_glob_snd (root : Path) (fs : FS) (pat : String) (mx : Nat) :
    (fs_glob root fs pat mx).2 = fs := rfl

theorem fs_read_snd (root : Path) (fs : FS) (p : String) (mb : Nat) :
    (fs_read root fs p mb).2 = fs := rfl

theorem fs_diff_snd (root : Path) (fs : FS) (ps : Option (List String))
    (u : Bool) (mb : Nat) : (fs_diff root fs ps u mb).2 = fs := rfl

theorem dispatch_nonwritey_snd (subn : SubnEngine) (root : Path) (fs : FS)
    (name : String) (args : ToolArgs) (h : name ∉ WRITEY) :
    (dispatch_tool_call subn root fs name args).2 = fs := by
  have hw : name ≠ ("fs_write") := fun he => h (by rw [he]; decide)
  have hp : name ≠ ("fs_patch") := fun he => h (by rw [he]; decide)
  have hk : name ≠ ("fs_mkdir") := fun he => h (by rw [he]; decide)
  have hd : name ≠ ("fs_delete") := fun he => h (by rw [he]; decide)
  unfold dispatch_tool_call
  by_cases h1 : name = ("fs_map")
  · rw [if_pos h1]; exact fs_map_snd ..
  rw [if_neg h1]
  by_cases h2 : name = ("fs_glob")
  · rw [if_pos h2]
    rcases args.pattern with _ | p
    · rfl
    · exact fs_glob_snd ..
  rw [if_neg h2]
  by_cases h3 : name = ("fs_read")
  · rw [if_pos h3]
    rcases args.path with _ | p
    · rfl
    · exact fs_read_snd ..
  rw [if_neg h3, if_neg hw, if_neg hk, if_neg hd]
  by_cases h4 : name = ("fs_diff")
  · rw [if_pos h4]; exact fs_diff_snd ..
  rw [if_neg h4, if_neg hp]

theorem execCalls_t (subn : SubnEngine) (root : Path) (v : Bool)
    (l : List ToolCallReq) : ∀ st, (execCalls subn root v l st).t = st.t := by
  induction l with
  | nil => intro st; rfl
  | cons tc rest ih =>
      intro st
      rw [execCalls]
      exact ih _

theorem execCalls_calls (subn : SubnEngine) (root : Path) (v : Bool)
    (l : List ToolCallReq) :
    ∀ st, (execCalls subn root v l st).calls = st.calls := by
  induction l with
  | nil => intro st; rfl
  | cons tc rest ih =>
      intro st
      rw [execCalls]
      exact ih _

theorem execCalls_fs_vo (subn : SubnEngine) (root : Path)
    (l : List ToolCallReq) :
    ∀ st, (execCalls subn root true l st).fs = st.fs := by
  induction l with
  | nil => intro st; rfl
  | cons tc rest ih =>
      intro st
      rw [execCalls]
      by_cases hm : tc.name ∈ WRITEY
      · rw [if_pos ⟨rfl, hm⟩]
        exact ih _
      · rw [if_neg (fun h => hm h.2)]
        rw [ih _]
        exact dispatch_nonwritey_snd subn root st.fs tc.name tc.args hm

theorem writeySkipped_append {l₁ l₂ : List LogEntry}
    (h₁ : WriteySkipped l₁) (h₂ : WriteySkipped l₂) :
    WriteySkipped (l₁ ++ l₂) := by
  intro e he hw
  rcases List.mem_append.mp he with h | h
  · exact h₁ e h hw
  · exact h₂ e h hw

theorem execCalls_log_vo (subn : SubnEngine) (root : Path)
    (l : List ToolCallReq) :
    ∀ st, WriteySkipped st.log →
      WriteySkipped (execCalls subn root true l st).log := by
  induction l with
  | nil => intro st h; exact h
  | cons tc rest ih =>
      intro st h
      rw [execCalls]
      by_cases hm : tc.name ∈ WRITEY
      · rw [if_pos ⟨rfl, hm⟩]
        refine ih _ (writeySkipped_append h ?_)
        intro e he _
        rw [List.mem_singleton] at he
        subst he
        exact ⟨rfl, rfl⟩
      · rw [if_neg (fun hc => hm hc.2)]
        refine ih _ (writeySkipped_append h ?_)
        intro e he hw
        rw [List.mem_singleton] at he
        subst he
        exact absurd hw hm

theorem runTurns_t_le (subn : SubnEngine) (root : Path) (cfg : AgentCfg)
    (script : Nat → ModelResponse) (fuel : Nat) :
    ∀ step st, (runTurns subn root cfg script fuel step st).1.t
      ≤ pyMax st.t (cfg.budget + pyMax 1 cfg.turnTimeout) := by
  induction fuel with
  | zero => intro step st; exact le_pyMax_left ..
  | succ fuel ih =>
      intro step st
      rw [runTurns]
      by_cases hr : pyMax 0 (qSub cfg.budget st.t) ≤ 0
      · rw [if_pos hr]; exact le_pyMax_left ..
      · rw [if_neg hr]
        have hst : st.t < cfg.budget := by
          have h0 : 0 < pyMax 0 (qSub cfg.budget st.t) := lt_of_not_le hr
          have := pyMax_pos_of h0 (lt_irrefl 0)
          rw [qSub_eq] at this
          linarith [this]
        have hptb : perTurnBudget cfg.turnTimeout (pyMax 0 (qSub cfg.budget st.t))
            ≤ pyMax 1 cfg.turnTimeout := perTurnBudget_le ..
        by_cases hto : (script step).latency >
            perTurnBudget cfg.turnTimeout (pyMax 0 (qSub cfg.budget st.t))
        · rw [if_pos hto]
          show qAdd st.t _ ≤ _
          rw [qAdd_eq]
          exact le_trans (by linarith) (le_pyMax_right ..)
        · rw [if_neg hto]
          have hlle : (script step).latency
              ≤ perTurnBudget cfg.turnTimeout (pyMax 0 (qSub cfg.budget st.t)) :=
            le_of_not_lt hto
          have hbound : qAdd st.t (script step).latency
              ≤ cfg.budget + pyMax 1 cfg.turnTimeout := by
            rw [qAdd_eq]
            linarith
          by_cases htc : (script step).toolCalls ≠ []
          · rw [if_pos htc]
            refine le_trans (ih ..) (pyMax_le ?_ (le_pyMax_right ..))
            rw [execCalls_t]
            exact le_trans hbound (le_pyMax_right ..)
          · rw [if_neg htc]
            by_cases hdone : isDoneText (script step).text = true
            · rw [if_pos hdone]
              exact le_trans hbound (le_pyMax_right ..)
            · rw [if_neg hdone]
              refine le_trans (ih ..) (pyMax_le ?_ (le_pyMax_right ..))
              exact le_trans hbound (le_pyMax_right ..)

theorem runTurns_silent (subn : SubnEngine) (root : Path) (cfg : AgentCfg)
    (script : Nat → ModelResponse)
    (hs : ∀ n, (script n).toolCalls = [] ∧ isDoneText (script n).text = false
      ∧ (script n).latency = 0)
    (hb : 0 < cfg.budget) (fuel : Nat) :
    ∀ step st, st.t = 0 →
      runTurns subn root cfg script fuel step st
        = ({ st with calls := st.calls + fuel }, .capReached) := by
  induction fuel with
  | zero => intro step st h0; rw [Nat.add_zero]; rfl
  | succ fuel ih =>
      intro step st h0
      rw [runTurns]
      have hq : qSub cfg.budget st.t = cfg.budget := by
        rw [qSub_eq, h0, sub_zero]
      have hrem : ¬ pyMax 0 (qSub cfg.budget st.t) ≤ 0 := by
        rw [hq, pyMax_eq_right (le_of_lt hb)]
        exact not_le.mpr hb
      rw [if_neg hrem]
      have hto : ¬ ((script step).latency >
          perTurnBudget cfg.turnTimeout (pyMax 0 (qSub cfg.budget st.t))) := by
        rw [(hs step).2.2]
        exact not_lt.mpr (le_trans zero_le_one (one_le_perTurnBudget ..))
      rw [if_neg hto]
      have htc : ¬ ((script step).toolCalls ≠ []) := fun h => h (hs step).1
      rw [if_neg htc]
      have hdone : ¬ (isDoneText (script step).text = true) := by
        rw [(hs step).2.1]
        exact Bool.false_ne_true
      rw [if_neg hdone]
      have ht' : qAdd st.t (script step).latency = st.t := by
        rw [(hs step).2.2, qAdd_eq, add_zero]
      rw [ih (step + 1) _ (by rw [ht', h0] : _ = (0:ℚ))]
      rw [ht']
      have hc : st.calls + 1 + fuel = st.calls + (fuel + 1) := by omega
      rw [hc]

theorem extract_some_of_diff_last (l : List LogEntry) (e : LogEntry)
    (he : e.name = ("fs_diff")) :
    (_extract_diff_preview (l ++ [e])).isSome = true := by
  unfold _extract_diff_preview
  rw [List.reverse_append]
  show (extractAux (e :: l.reverse)).isSome = true
  rw [extractAux, if_pos he]
  rfl

theorem runTurns_fs_vo (subn : SubnEngine) (root : Path) (cfg : AgentCfg)
    (script : Nat → ModelResponse) (hv : cfg.validateOnly = true)
    (fuel : Nat) :
    ∀ step st, (runTurns subn root cfg script fuel step st).1.fs = st.fs := by
  induction fuel with
  | zero => intro step st; rfl
  | succ fuel ih =>
      intro step st
      rw [runTurns]
      by_cases hr : pyMax 0 (qSub cfg.budget st.t) ≤ 0
      · rw [if_pos hr]
      · rw [if_neg hr]
        by_cases hto : (script step).latency >
            perTurnBudget cfg.turnTimeout (pyMax 0 (qSub cfg.budget st.t))
        · rw [if_pos hto]
        · rw [if_neg hto]
          by_cases htc : (script step).toolCalls ≠ []
          · rw [if_pos htc, ih]
            rw [hv] at *
            exact execCalls_fs_vo ..
          · rw [if_neg htc]
            by_cases hdone : isDoneText (script step).text = true
            · rw [if_pos hdone]
            · rw [if_neg hdone]
              exact ih ..

theorem runTurns_log_vo (subn : SubnEngine) (root : Path) (cfg : AgentCfg)
    (script : Nat → ModelResponse) (hv : cfg.validateOnly = true)
    (fuel : Nat) :
    ∀ step st, WriteySkipped st.log →
      WriteySkipped (runTurns subn root cfg script fuel step st).1.log := by
  induction fuel with
  | zero => intro step st h; exact h
  | succ fuel ih =>
      intro step st h
      rw [runTurns]
      by_cases hr : pyMax 0 (qSub cfg.budget st.t) ≤ 0
      · rw [if_pos hr]; exact h
      · rw [if_neg hr]
        by_cases hto : (script step).latency >
            perTurnBudget cfg.turnTimeout (pyMax 0 (qSub cfg.budget st.t))
        · rw [if_pos hto]
          refine writeySkipped_append h ?_
          intro e he hw
          rw [List.mem_singleton] at he
          subst he
          exact absurd hw (by decide)
        · rw [if_neg hto]
          by_cases htc : (script step).toolCalls ≠ []
          · rw [if_pos htc]
            refine ih _ _ ?_
            rw [hv] at *
            exact execCalls_log_vo subn root _ _ h
          · rw [if_neg htc]
            by_cases hdone : isDoneText (script step).text = true
            · rw [if_pos hdone]; exact h
            · rw [if_neg hdone]
              exact ih _ _ h

theorem lookupFS_append_self (fs : FS) (p : Path) (c : String)
    (h : lookupFS fs p = none) : lookupFS (fs ++ [(p, c)]) p = some c := by
  induction fs with
  | nil => simp [lookupFS, List.find?]
  | cons e fs ih =>
      unfold lookupFS at h ⊢
      cases hbe : (e.1 == p) with
      | true => simp [List.find?, hbe] at h
      | false =>
          simp only [List.cons_append, List.find?, hbe] at h ⊢
          exact ih h

theorem lookupFS_setFS_self (fs : FS) (p : Path) (c : String)
    (h : isFileB fs p = false) : lookupFS (setFS fs p c) p = some c := by
  unfold setFS
  rw [h]
  simp only [Bool.false_eq_true, if_false]
  exact lookupFS_append_self fs p c (by
    unfold isFileB at h
    cases hl : lookupFS fs p with
    | none => rfl
    | some v => rw [hl] at h; simp at h)

theorem lookup_map_replace (fs : FS) (p : Path) (c : String)
    (h : (lookupFS fs p).isSome = true) :
    lookupFS (fs.map (fun e => if e.1 = p then (p, c) else e)) p = some c := by
  induction fs with
  | nil => simp [lookupFS] at h
  | cons e fs ih =>
      by_cases he : e.1 = p
      · simp [lookupFS, List.find?_cons, he]
      · have hne : (e.1 == p) = false := by simp [he]
        have h' : (lookupFS fs p).isSome = true := by
          simpa [lookupFS, List.find?_cons, hne] using h
        simpa [lookupFS, List.find?_cons, he, hne] using ih h'

theorem lookup_map_replace_ne (fs : FS) (p q : Path) (c : String)
    (hq : q ≠ p) :
    lookupFS (fs.map (fun e => if e.1 = p then (p, c) else e)) q =
      lookupFS fs q := by
  induction fs with
  | nil => simp [lookupFS]
  | cons e fs ih =>
      by_cases he : e.1 = p
      · have hne : (p == q) = false := by simp [Ne.symm hq]
        have hne' : (e.1 == q) = false := by simp [he, Ne.symm hq]
        simpa [lookupFS, List.find?_cons, he, hne, hne'] using ih
      · by_cases heq : e.1 = q
        · simp [lookupFS, List.find?_cons, heq, hq]
        · have hne' : (e.1 == q) = false := by simp [heq]
          simpa [lookupFS, List.find?_cons, he, hne'] using ih

theorem lookupFS_append_ne (fs : FS) (p q : Path) (c : String) (hq : q ≠ p) :
    lookupFS (fs ++ [(p, c)]) q = lookupFS fs q := by
  induction fs with
  | nil =>
      have hne : (p == q) = false := by simp [Ne.symm hq]
      simp [lookupFS, List.find?, hne]
  | cons e fs ih =>
      by_cases heq : e.1 = q
      · simp [lookupFS, List.find?_cons, heq]
      · have hne : (e.1 == q) = false := by simp [heq]
        simpa [lookupFS, List.find?_cons, hne] using ih

theorem lookupFS_setFS_eq (fs : FS) (p : Path) (c : String) :
    lookupFS (setFS fs p c) p = some c := by
  unfold setFS
  by_cases h : isFileB fs p = true
  · rw [if_pos h]
    exact lookup_map_replace fs p c h
  · rw [if_neg h]
    refine lookupFS_append_self fs p c ?_
    unfold isFileB at h
    cases hl : lookupFS fs p with
    | none => rfl
    | some v => rw [hl] at h; simp at h

theorem lookupFS_setFS_ne (fs : FS) (p q : Path) (c : String) (hq : q ≠ p) :
    lookupFS (setFS fs p c) q = lookupFS fs q := by
  unfold setFS
  by_cases h : isFileB fs p = true
  · rw [if_pos h]; exact lookup_map_replace_ne fs p q c hq
  · rw [if_neg h]; exact lookupFS_append_ne fs p q c hq

theorem persistLastRun_lookup_ne (root : Path) (fs : FS) (c : String)
    (q : Path) (hq : q ≠ lastRunPath root) :
    lookupFS (persistLastRun root fs c) q = lookupFS fs q := by
  unfold persistLastRun
  split
  · rfl
  · split
    · rfl
    · exact lookupFS_setFS_ne fs (lastRunPath root) q c hq

theorem isFileB_setFS (fs : FS) (p q : Path) (c : String) :
    isFileB (setFS fs p c) q = (isFileB fs q || q == p) := by
  by_cases hq : q = p
  · subst hq
    unfold isFileB
    rw [lookupFS_setFS_eq]
    simp
  · unfold isFileB
    rw [lookupFS_setFS_ne fs p q c hq]
    simp [hq]

theorem keys_any_eq (fs : FS) (P : Path → Bool) :
    fs.any (fun e => P e.1) = (keysOf fs).any P := by
  induction fs with
  | nil => rfl
  | cons e fs ih => simp [keysOf, List.any_cons] at ih ⊢; rw [ih]

theorem keysOf_setFS_file (fs : FS) (p : Path) (c : String)
    (h : isFileB fs p = true) : keysOf (setFS fs p c) = keysOf fs := by
  unfold setFS
  rw [if_pos h]
  unfold keysOf
  rw [List.map_map]
  refine List.map_congr_left ?_
  intro e _
  by_cases he : e.1 = p
  · simp [he]
  · simp [he]

theorem keysOf_setFS_new (fs : FS) (p : Path) (c : String)
    (h : isFileB fs p = false) : keysOf (setFS fs p c) = keysOf fs ++ [p] := by
  unfold setFS
  rw [h]
  simp [keysOf]

theorem isDirB_keys (root : Path) (fs : FS) (q : Path) :
    isDirB root fs q =
      (q.isPrefixOf root || (keysOf fs).any (fun k => !(k == q) && q.isPrefixOf k)) := by
  unfold isDirB
  rw [keys_any_eq fs (fun k => !(k == q) && q.isPrefixOf k)]

theorem isDirB_setFS (root : Path) (fs : FS) (p q : Path) (c : String) :
    isDirB root (setFS fs p c) q =
      (isDirB root fs q || (!(isFileB fs p) && (!(p == q) && q.isPrefixOf p))) := by
  by_cases h : isFileB fs p = true
  · rw [isDirB_keys, keysOf_setFS_file fs p c h, ← isDirB_keys, h]
    simp
  · rw [isDirB_keys, keysOf_setFS_new fs p c (by simpa using h)]
    rw [List.any_append, isDirB_keys]
    have h' : isFileB fs p = false := by simpa using h
    simp [h', List.any_cons, Bool.or_assoc]

theorem isDirB_setFS_mono (root : Path) (fs : FS) (p q : Path) (c : String)
    (h : isDirB root fs q = true) : isDirB root (setFS fs p c) q = true := by
  rw [isDirB_setFS, h]
  rfl

theorem existsB_setFS_mono (root : Path) (fs : FS) (p q : Path) (c : String)
    (h : existsB root fs q = true) : existsB root (setFS fs p c) q = true := by
  unfold existsB at h ⊢
  rcases Bool.or_eq_true_iff.mp h with h | h
  · rw [isFileB_setFS, h]
    rfl
  · rw [isDirB_setFS_mono root fs p q c h]
    simp

theorem exists_entry_of_isFileB (fs : FS) (t : Path)
    (h : isFileB fs t = true) : ∃ e, e ∈ fs ∧ e.1 = t := by
  unfold isFileB lookupFS at h
  cases hf : fs.find? (fun e => e.1 == t) with
  | none => rw [hf] at h; simp at h
  | some e =>
      refine ⟨e, List.mem_of_find?_eq_some hf, ?_⟩
      have := List.find?_some hf
      simpa using this

theorem isDirB_of_entry (root : Path) (fs : FS) (q : Path) (e : Path × String)
    (he : e ∈ fs) (hp : q.isPrefixOf e.1 = true) (hne : e.1 ≠ q) :
    isDirB root fs q = true := by
  unfold isDirB
  refine Bool.or_eq_true_iff.mpr (Or.inr ?_)
  exact List.any_eq_true.mpr ⟨e, he, by simp [hne, hp]⟩

/-- Any proper prefix of an existing path is a directory. -/
theorem anc_isDir (root : Path) (fs : FS) (t q : Path)
    (ht : existsB root fs t = true) (hq : q <+: t) (hne : q ≠ t) :
    isDirB root fs q = true := by
  have hqb : q.isPrefixOf t = true := List.isPrefixOf_iff_prefix.mpr hq
  unfold existsB at ht
  rcases Bool.or_eq_true_iff.mp ht with hf | hd
  · rcases exists_entry_of_isFileB fs t hf with ⟨e, he, het⟩
    exact isDirB_of_entry root fs q e he (het ▸ hqb) (het ▸ Ne.symm hne)
  · unfold isDirB at hd
    rcases Bool.or_eq_true_iff.mp hd with hr | ha
    · -- t is an ancestor of the root chain; so is q
      unfold isDirB
      refine Bool.or_eq_true_iff.mpr (Or.inl ?_)
      exact List.isPrefixOf_iff_prefix.mpr
        (hq.trans (List.isPrefixOf_iff_prefix.mp hr))
    · rcases List.any_eq_true.mp ha with ⟨e, he, hpe⟩
      have h1 : (e.1 == t) = false := by
        have := (Bool.and_eq_true_iff.mp hpe).1
        simpa using this
      have h2 : t <+: e.1 :=
        List.isPrefixOf_iff_prefix.mp (Bool.and_eq_true_iff.mp hpe).2
      have hqe : q <+: e.1 := hq.trans h2
      refine isDirB_of_entry root fs q e he
        (List.isPrefixOf_iff_prefix.mpr hqe) ?_
      intro hqeq
      -- q = e.1 would force t = e.1 by prefix antisymmetry
      have hte : t = e.1 := by
        have h3 : e.1 <+: t := hqeq ▸ hq
        exact h2.eq_of_length_le h3.length_le
      rw [hte] at h1
      simp at h1

theorem mkdirOk_iff (fs : FS) (d : Path) :
    mkdirOk fs d = true ↔ ∀ q, q <+: d → isFileB fs q = false := by
  unfold mkdirOk
  rw [List.all_eq_true]
  constructor
  · intro h q hq
    have := h q ((List.mem_inits q d).mpr hq)
    simpa using this
  · intro h q hq
    simp [h q ((List.mem_inits q d).mp hq)]

theorem mkdirOk_setFS (fs : FS) (p d : Path) (c : String)
    (h : mkdirOk fs d = true) (hp : ¬ p <+: d) :
    mkdirOk (setFS fs p c) d = true := by
  rw [mkdirOk_iff] at h ⊢
  intro q hq
  rw [isFileB_setFS]
  have h2 : (q == p) = false := by
    refine beq_eq_false_iff_ne.mpr ?_
    intro he
    exact hp (he ▸ hq)
  rw [h q hq, h2]
  rfl

theorem nil_isDirB (root : Path) (fs : FS) : isDirB root fs ([]) = true := by
  unfold isDirB
  have : (([] : Path).isPrefixOf root) = true := by
    cases root <;> rfl
  rw [this]
  rfl

theorem not_self_prefix_dropLast (p : Path) (hp : p ≠ []) :
    ¬ p <+: p.dropLast := by
  intro h
  have h1 := h.length_le
  rw [List.length_dropLast] at h1
  have h2 : 0 < p.length := List.length_pos.mpr hp
  omega

theorem StepOkAt_setFS (appDir : Path) (fs : FS) (p : Path) (c : String)
    (s : FixStep) (hs : StepOkAt appDir fs s)
    (hp : isFileB fs p = true ∨ existsB appDir fs p = false) :
    StepOkAt appDir (setFS fs p c) s := by
  obtain ⟨he, hm⟩ := hs
  refine ⟨existsB_setFS_mono appDir fs p s.target c he, ?_⟩
  refine mkdirOk_setFS fs p s.target.dropLast c hm ?_
  intro hpre
  rcases hp with hf | hne
  · rw [mkdirOk_iff] at hm
    have := hm p hpre
    rw [hf] at this
    cases this
  · have hda : isDirB appDir fs p = true := by
      have hdl : s.target.dropLast <+: s.target := List.dropLast_prefix s.target
      have hpt : p <+: s.target := hpre.trans hdl
      by_cases hEq : p = s.target
      · have hnil : s.target = [] := by
          by_contra hn
          exact not_self_prefix_dropLast s.target hn (hEq ▸ hpre)
        rw [hEq, hnil]
        exact nil_isDirB appDir fs
      · exact anc_isDir appDir fs s.target p he hpt hEq
    unfold existsB at hne
    rw [Bool.or_eq_false_iff] at hne
    rw [hda] at hne
    exact absurd hne.2 (by simp)

theorem make_file_ok_cases (appDir : Path) (fs : FS) (p : Path) (c : String)
    (fs' : FS) (d : String)
    (h : _make_file appDir fs p c = .ok (fs', d)) :
    mkdirOk fs p.dropLast = true ∧
    ((existsB appDir fs p = false ∧ fs' = setFS fs p c)
     ∨ (isFileB fs p = true
          ∧ utf8Len ((lookupFS fs p).getD ("")) < 40 ∧ fs' = setFS fs p c)
     ∨ (existsB appDir fs p = true ∧ fs' = fs
          ∧ (isFileB fs p = true →
              ¬ utf8Len ((lookupFS fs p).getD ("")) < 40))) := by
  unfold _make_file at h
  split at h
  · exact absurd h (by simp)
  · next hcond =>
      have h1 : mkdirOk fs p.dropLast = true := not_not.mp hcond
      refine ⟨h1, ?_⟩
      split at h
      · next hex =>
          simp only [Except.ok.injEq, Prod.mk.injEq] at h
          exact Or.inl ⟨by simpa using hex, h.1.symm⟩
      · next hex =>
          have hex' : existsB appDir fs p = true := by
            by_contra hc
            exact hex (by simpa using hc)
          split at h
          · next hfile =>
              split at h
              · next hsmall =>
                  simp only [Except.ok.injEq, Prod.mk.injEq] at h
                  exact Or.inr (Or.inl ⟨hfile, hsmall, h.1.symm⟩)
              · next hsmall =>
                  simp only [Except.ok.injEq, Prod.mk.injEq] at h
                  exact Or.inr (Or.inr ⟨hex', h.1.symm, fun _ => hsmall⟩)
          · next hfile =>
              simp only [Except.ok.injEq, Prod.mk.injEq] at h
              refine Or.inr (Or.inr ⟨hex', h.1.symm, fun hf => absurd hf hfile⟩)

/-- After a successful `_make_file`, its own target exists and its parent
chain is free of regular files. -/
theorem make_file_StepOk (appDir : Path) (fs : FS) (p : Path) (c : String)
    (fs' : FS) (d : String)
    (h : _make_file appDir fs p c = .ok (fs', d)) :
    existsB appDir fs' p = true ∧ mkdirOk fs' p.dropLast = true := by
  obtain ⟨h1, hcases⟩ := make_file_ok_cases appDir fs p c fs' d h
  have hmk : ∀ _ : p ≠ [], mkdirOk (setFS fs p c) p.dropLast = true := by
    intro hne
    exact mkdirOk_setFS fs p p.dropLast c h1 (not_self_prefix_dropLast p hne)
  rcases hcases with ⟨hex, rfl⟩ | ⟨hfile, _, rfl⟩ | ⟨hex, rfl, _⟩
  · have hne : p ≠ [] := by
      intro hnil
      rw [hnil] at hex
      unfold existsB at hex
      rw [nil_isDirB appDir fs] at hex
      simp at hex
    refine ⟨?_, hmk hne⟩
    unfold existsB
    rw [isFileB_setFS]
    simp
  · have hne : p ≠ [] := by
      intro hnil
      rw [mkdirOk_iff] at h1
      have := h1 p (by rw [hnil]; exact List.nil_prefix)
      rw [hfile] at this
      cases this
    refine ⟨?_, hmk hne⟩
    unfold existsB
    rw [isFileB_setFS]
    simp
  · exact ⟨hex, h1⟩

theorem make_file_preserves_StepOk (appDir : Path) (fs : FS) (p : Path)
    (c : String) (fs' : FS) (d : String) (s : FixStep)
    (h : _make_file appDir fs p c = .ok (fs', d))
    (hs : StepOkAt appDir fs s) : StepOkAt appDir fs' s := by
  obtain ⟨_, hcases⟩ := make_file_ok_cases appDir fs p c fs' d h
  rcases hcases with ⟨hex, rfl⟩ | ⟨hfile, _, rfl⟩ | ⟨_, rfl, _⟩
  · exact StepOkAt_setFS appDir fs p c s hs (Or.inr hex)
  · exact StepOkAt_setFS appDir fs p c s hs (Or.inl hfile)
  · exact hs

theorem make_file_lookup_ne (appDir : Path) (fs : FS) (p : Path) (c : String)
    (fs' : FS) (d : String) (q : Path)
    (h : _make_file appDir fs p c = .ok (fs', d)) (hq : q ≠ p) :
    lookupFS fs' q = lookupFS fs q := by
  obtain ⟨_, hcases⟩ := make_file_ok_cases appDir fs p c fs' d h
  rcases hcases with ⟨_, rfl⟩ | ⟨_, _, rfl⟩ | ⟨_, rfl, _⟩
  · exact lookupFS_setFS_ne fs p q c hq
  · exact lookupFS_setFS_ne fs p q c hq
  · rfl

theorem runSteps_preserves_StepOk (appDir : Path) (ss : List FixStep)
    (fs fs₁ : FS) (l : List String) (s : FixStep)
    (h : runSteps appDir ss fs = .ok (fs₁, l))
    (hs : StepOkAt appDir fs s) : StepOkAt appDir fs₁ s := by
  induction ss generalizing fs l with
  | nil =>
      unfold runSteps at h
      simp only [Except.ok.injEq, Prod.mk.injEq] at h
      exact h.1 ▸ hs
  | cons t ss ih =>
      unfold runSteps at h
      cases hmf : _make_file appDir fs t.target t.content with
      | error e => rw [hmf] at h; exact absurd h (by simp)
      | ok pr =>
          obtain ⟨fsm, dm⟩ := pr
          rw [hmf] at h
          dsimp only at h
          cases hrs : runSteps appDir ss fsm with
          | error e => rw [hrs] at h; exact absurd h (by simp)
          | ok pr2 =>
              obtain ⟨fsr, dr⟩ := pr2
              rw [hrs] at h
              simp only [Except.ok.injEq, Prod.mk.injEq] at h
              obtain ⟨hf, hl⟩ := h
              subst hf
              exact ih fsm dr hrs
                (make_file_preserves_StepOk appDir fs t.target t.content
                  fsm dm s hmf hs)

theorem runSteps_StepOk_all (appDir : Path) (ss : List FixStep)
    (fs fs₁ : FS) (l : List String)
    (h : runSteps appDir ss fs = .ok (fs₁, l)) :
    ∀ s ∈ ss, StepOkAt appDir fs₁ s := by
  induction ss generalizing fs l with
  | nil => intro s hs; cases hs
  | cons t ss ih =>
      unfold runSteps at h
      cases hmf : _make_file appDir fs t.target t.content with
      | error e => rw [hmf] at h; exact absurd h (by simp)
      | ok pr =>
          obtain ⟨fsm, dm⟩ := pr
          rw [hmf] at h
          dsimp only at h
          cases hrs : runSteps appDir ss fsm with
          | error e => rw [hrs] at h; exact absurd h (by simp)
          | ok pr2 =>
              obtain ⟨fsr, dr⟩ := pr2
              rw [hrs] at h
              simp only [Except.ok.injEq, Prod.mk.injEq] at h
              obtain ⟨hf, hl⟩ := h
              subst hf
              intro s hmem
              rcases List.mem_cons.mp hmem with rfl | hmem'
              · have h0 := make_file_StepOk appDir fs s.target s.content
                  fsm dm hmf
                exact runSteps_preserves_StepOk appDir ss fsm _ dr s
                  hrs ⟨h0.1, h0.2⟩
              · exact ih fsm dr hrs s hmem'

theorem make_file_no_file_on_dir (appDir : Path) (fs : FS) (p : Path)
    (c : String) (fs' : FS) (d : String) (q : Path)
    (h : _make_file appDir fs p c = .ok (fs', d))
    (hd : isDirB appDir fs q = true) (hf : isFileB fs q = false) :
    isFileB fs' q = false ∧ isDirB appDir fs' q = true := by
  obtain ⟨_, hcases⟩ := make_file_ok_cases appDir fs p c fs' d h
  rcases hcases with ⟨hex, rfl⟩ | ⟨hfile, _, rfl⟩ | ⟨_, rfl, _⟩
  · have hqp : (q == p) = false := by
      refine beq_eq_false_iff_ne.mpr ?_
      intro hEq
      subst hEq
      unfold existsB at hex
      rw [hd] at hex
      simp at hex
    rw [isFileB_setFS, hf, hqp]
    exact ⟨rfl, isDirB_setFS_mono appDir fs p q c hd⟩
  · have hqp : (q == p) = false := by
      refine beq_eq_false_iff_ne.mpr ?_
      intro hEq
      subst hEq
      rw [hfile] at hf
      cases hf
    rw [isFileB_setFS, hf, hqp]
    exact ⟨rfl, isDirB_setFS_mono appDir fs p q c hd⟩
  · exact ⟨hf, hd⟩

theorem runSteps_no_file_on_dir (appDir : Path) (ss : List FixStep)
    (fs fs₁ : FS) (l : List String) (q : Path)
    (h : runSteps appDir ss fs = .ok (fs₁, l))
    (hd : isDirB appDir fs q = true) (hf : isFileB fs q = false) :
    isFileB fs₁ q = false := by
  induction ss generalizing fs l with
  | nil =>
      unfold runSteps at h
      simp only [Except.ok.injEq, Prod.mk.injEq] at h
      exact h.1 ▸ hf
  | cons t ss ih =>
      unfold runSteps at h
      cases hmf : _make_file appDir fs t.target t.content with
      | error e => rw [hmf] at h; exact absurd h (by simp)
      | ok pr =>
          obtain ⟨fsm, dm⟩ := pr
          rw [hmf] at h
          dsimp only at h
          cases hrs : runSteps appDir ss fsm with
          | error e => rw [hrs] at h; exact absurd h (by simp)
          | ok pr2 =>
              obtain ⟨fsr, dr⟩ := pr2
              rw [hrs] at h
              simp only [Except.ok.injEq, Prod.mk.injEq] at h
              obtain ⟨hfq, hl⟩ := h
              subst hfq
              obtain ⟨h1, h2⟩ := make_file_no_file_on_dir appDir fs t.target
                t.content fsm dm q hmf hd hf
              exact ih fsm dr hrs h2 h1

theorem isFileB_keys (fs : FS) (q : Path) :
    isFileB fs q = (keysOf fs).any (fun k => k == q) := by
  induction fs with
  | nil => rfl
  | cons e fs ih =>
      unfold isFileB lookupFS at ih ⊢
      cases he : (e.1 == q) with
      | true => simp [keysOf, List.find?_cons, he]
      | false => simpa [keysOf, List.find?_cons, he] using ih

theorem existsB_of_keys (root : Path) (fs fs' : FS) (q : Path)
    (hk : keysOf fs' = keysOf fs) : existsB root fs' q = existsB root fs q := by
  unfold existsB
  rw [isFileB_keys, isFileB_keys, hk, isDirB_keys, isDirB_keys, hk]

theorem mkdirOk_of_keys (fs fs' : FS) (d : Path)
    (hk : keysOf fs' = keysOf fs) : mkdirOk fs' d = mkdirOk fs d := by
  unfold mkdirOk
  have hpt : ∀ q, isFileB fs' q = isFileB fs q := by
    intro q
    rw [isFileB_keys, isFileB_keys, hk]
  simp only [hpt]

theorem StepOkAt_of_keys (appDir : Path) (fs fs' : FS) (s : FixStep)
    (hk : keysOf fs' = keysOf fs) (h : StepOkAt appDir fs s) :
    StepOkAt appDir fs' s := by
  obtain ⟨h1, h2⟩ := h
  exact ⟨by rw [existsB_of_keys appDir fs fs' s.target hk]; exact h1,
         by rw [mkdirOk_of_keys fs fs' s.target.dropLast hk]; exact h2⟩

theorem keysOf_cStep (T : FS) (s : FixStep) : keysOf (cStep T s) = keysOf T := by
  unfold cStep
  split
  · next hcond =>
      exact keysOf_setFS_file T s.target s.content
        (Bool.and_eq_true_iff.mp hcond).1
  · rfl

theorem keysOf_foldl_cStep (ss : List FixStep) (T : FS) :
    keysOf (ss.foldl cStep T) = keysOf T := by
  induction ss generalizing T with
  | nil => rfl
  | cons s ss ih => rw [List.foldl_cons, ih (cStep T s), keysOf_cStep]

theorem lookupFS_cStep_ne (T : FS) (s : FixStep) (q : Path)
    (hq : q ≠ s.target) : lookupFS (cStep T s) q = lookupFS T q := by
  unfold cStep
  split
  · exact lookupFS_setFS_ne T s.target q s.content hq
  · rfl

theorem lookupFS_cStep_eq (T : FS) (s : FixStep) :
    lookupFS (cStep T s) s.target = stepCc (lookupFS T s.target) s.content := by
  unfold cStep stepCc
  cases hl : lookupFS T s.target with
  | none =>
      have hf : isFileB T s.target = false := by unfold isFileB; rw [hl]; rfl
      rw [hf]
      simp [hl]
  | some w =>
      have hf : isFileB T s.target = true := by unfold isFileB; rw [hl]; rfl
      by_cases hs : utf8Len w < 40
      · rw [hf]
        simp only [hl, Option.getD_some, Bool.true_and]
        rw [if_pos (by simp [hs]), if_pos hs]
        exact lookupFS_setFS_eq T s.target s.content
      · rw [hf]
        simp only [hl, Option.getD_some, Bool.true_and]
        rw [if_neg (by simp [hs]), if_neg hs, hl]

theorem foldl_cStep_lookup (ss : List FixStep) (T : FS) (q : Path) :
    lookupFS (ss.foldl cStep T) q
      = (contentsAt q ss).foldl stepCc (lookupFS T q) := by
  induction ss generalizing T with
  | nil => rfl
  | cons s ss ih =>
      rw [List.foldl_cons]
      by_cases hst : s.target = q
      · subst hst
        have hcc : contentsAt s.target (s :: ss)
            = s.content :: contentsAt s.target ss := by
          simp [contentsAt]
        rw [hcc, List.foldl_cons, ih (cStep T s), lookupFS_cStep_eq]
      · have hcc : contentsAt q (s :: ss) = contentsAt q ss := by
          simp [contentsAt, hst]
        rw [hcc, ih (cStep T s),
          lookupFS_cStep_ne T s q (fun hEq => hst hEq.symm)]

theorem stepCc_none_absorb (cs : List String) :
    cs.foldl stepCc none = none := by
  induction cs with
  | nil => rfl
  | cons c cs ih => simpa [stepCc] using ih

theorem stepPc_large_absorb (cs : List String) (v : String)
    (hv : ¬ utf8Len v < 40) : cs.foldl stepPc (some v) = some v := by
  induction cs with
  | nil => rfl
  | cons c cs ih =>
      rw [List.foldl_cons]
      have : stepPc (some v) c = some v := by unfold stepPc; simp [hv]
      rw [this]
      exact ih

theorem stepCc_large_absorb (cs : List String) (v : String)
    (hv : ¬ utf8Len v < 40) : cs.foldl stepCc (some v) = some v := by
  induction cs with
  | nil => rfl
  | cons c cs ih =>
      rw [List.foldl_cons]
      have : stepCc (some v) c = some v := by unfold stepCc; simp [hv]
      rw [this]
      exact ih

theorem stepPc_eq_stepCc_some (cs : List String) (x : String) :
    cs.foldl stepPc (some x) = cs.foldl stepCc (some x) := by
  induction cs generalizing x with
  | nil => rfl
  | cons c cs ih =>
      rw [List.foldl_cons, List.foldl_cons]
      have h1 : stepPc (some x) c = some (if utf8Len x < 40 then c else x) := by
        by_cases hx : utf8Len x < 40 <;> simp [stepPc, hx]
      have h2 : stepCc (some x) c = some (if utf8Len x < 40 then c else x) := by
        by_cases hx : utf8Len x < 40 <;> simp [stepCc, hx]
      rw [h1, h2]
      exact ih (if utf8Len x < 40 then c else x)

theorem chain_fix (cs : List String) (w : Option String) (v : String)
    (h : cs.foldl stepPc w = some v) : cs.foldl stepCc (some v) = some v := by
  induction cs generalizing w with
  | nil => rfl
  | cons c cs ih =>
      rw [List.foldl_cons] at h
      rw [List.foldl_cons]
      by_cases hv : utf8Len v < 40
      · have hcc : stepCc (some v) c = some c := by unfold stepCc; simp [hv]
        rw [hcc]
        have hw : stepPc w c = some c
            ∨ ∃ u, stepPc w c = some u ∧ ¬ utf8Len u < 40 := by
          unfold stepPc
          cases w with
          | none => exact Or.inl rfl
          | some x =>
              by_cases hx : utf8Len x < 40
              · simp [hx]
              · exact Or.inr ⟨x, by simp [hx], hx⟩
        rcases hw with hw | ⟨u, hw, hu⟩
        · rw [hw] at h
          rw [← stepPc_eq_stepCc_some]
          exact h
        · rw [hw, stepPc_large_absorb cs u hu] at h
          injection h with h'
          subst h'
          exact absurd hv hu
      · have hcc : stepCc (some v) c = some v := by unfold stepCc; simp [hv]
        rw [hcc]
        exact stepCc_large_absorb cs v hv

theorem contentsAt_eq_nil (q : Path) (ss : List FixStep)
    (h : ∀ s ∈ ss, s.target ≠ q) : contentsAt q ss = [] := by
  unfold contentsAt
  have : ss.filter (fun s => s.target == q) = [] := by
    rw [List.filter_eq_nil_iff]
    intro s hs
    simp [h s hs]
  rw [this]
  rfl

theorem smokePart_ok_cases (appDir : Path) (fs fs' : FS) (l : List String)
    (h : smokePart appDir fs = .ok (fs', l)) :
    (existsB appDir fs (smokePath appDir) = true ∧ fs' = fs)
    ∨ (existsB appDir fs (smokePath appDir) = false
        ∧ fs' = setFS fs (smokePath appDir) smokeContent) := by
  unfold smokePart at h
  split at h
  · exact absurd h (by simp)
  · split at h
    · next hex =>
        simp only [Except.ok.injEq, Prod.mk.injEq] at h
        exact Or.inl ⟨hex, h.1.symm⟩
    · next hex =>
        split at h
        · exact absurd h (by simp)
        · simp only [Except.ok.injEq, Prod.mk.injEq] at h
          exact Or.inr ⟨by simpa using hex, h.1.symm⟩

theorem smokePart_smoke_exists (appDir : Path) (fs fs' : FS)
    (l : List String) (h : smokePart appDir fs = .ok (fs', l)) :
    existsB appDir fs' (smokePath appDir) = true := by
  rcases smokePart_ok_cases appDir fs fs' l h with ⟨hex, rfl⟩ | ⟨hex, rfl⟩
  · exact hex
  · unfold existsB
    rw [isFileB_setFS]
    simp

theorem smokePart_preserves_StepOk (appDir : Path) (fs fs' : FS)
    (l : List String) (s : FixStep) (h : smokePart appDir fs = .ok (fs', l))
    (hs : StepOkAt appDir fs s) : StepOkAt appDir fs' s := by
  rcases smokePart_ok_cases appDir fs fs' l h with ⟨_, rfl⟩ | ⟨hex, rfl⟩
  · exact hs
  · exact StepOkAt_setFS appDir fs (smokePath appDir) smokeContent s hs
      (Or.inr hex)

theorem smokePart_id_of (appDir : Path) (T : FS)
    (hex : existsB appDir T (smokePath appDir) = true) :
    smokePart appDir T = .ok (T, []) := by
  have hpre : testsDirPath appDir <+: smokePath appDir := by
    refine ⟨["smoke_test.dart"], ?_⟩
    unfold testsDirPath smokePath
    simp
  have hne : testsDirPath appDir ≠ smokePath appDir := by
    intro hEq
    have := congrArg List.length hEq
    simp [testsDirPath, smokePath] at this
  have hdir := anc_isDir appDir T (smokePath appDir) (testsDirPath appDir)
    hex hpre hne
  have htd : existsB appDir T (testsDirPath appDir) = true := by
    unfold existsB
    rw [hdir]
    simp
  unfold smokePart
  rw [if_neg (by simp [htd]), if_pos hex]

theorem make_file_at_StepOk (appDir : Path) (T : FS) (s : FixStep)
    (h : StepOkAt appDir T s) :
    ∃ d, _make_file appDir T s.target s.content = .ok (cStep T s, d) := by
  obtain ⟨hex, hmk⟩ := h
  by_cases hf : isFileB T s.target = true
  · by_cases hs : utf8Len ((lookupFS T s.target).getD ("")) < 40
    · refine ⟨("filled ") ++ renderPath s.target, ?_⟩
      unfold _make_file
      rw [if_neg (by simp [hmk]), if_neg (by simp [hex]), if_pos hf, if_pos hs]
      unfold cStep
      rw [if_pos (by simp [hf, hs])]
    · refine ⟨("kept ") ++ renderPath s.target, ?_⟩
      unfold _make_file
      rw [if_neg (by simp [hmk]), if_neg (by simp [hex]), if_pos hf, if_neg hs]
      unfold cStep
      rw [if_neg (by simp [hf, hs])]
  · refine ⟨("kept ") ++ renderPath s.target, ?_⟩
    unfold _make_file
    rw [if_neg (by simp [hmk]), if_neg (by simp [hex]), if_neg hf]
    unfold cStep
    rw [if_neg (by simp [hf])]

theorem runSteps_content (appDir : Path) (ss : List FixStep) (T : FS)
    (h : ∀ s ∈ ss, StepOkAt appDir T s) :
    ∃ l, runSteps appDir ss T = .ok (ss.foldl cStep T, l) := by
  induction ss generalizing T with
  | nil => exact ⟨[], rfl⟩
  | cons s ss ih =>
      obtain ⟨d, hd⟩ := make_file_at_StepOk appDir T s (h s (by simp))
      have hrest : ∀ s' ∈ ss, StepOkAt appDir (cStep T s) s' := by
        intro s' hs'
        exact StepOkAt_of_keys appDir T (cStep T s) s' (keysOf_cStep T s)
          (h s' (by simp [hs']))
      obtain ⟨l, hl⟩ := ih (cStep T s) hrest
      refine ⟨d :: l, ?_⟩
      unfold runSteps
      rw [hd]
      dsimp only
      rw [hl]
      dsimp only
      rw [List.foldl_cons]

theorem runSteps_lookup_file (appDir : Path) (ss : List FixStep)
    (fs fs₁ : FS) (l : List String) (q : Path)
    (h : runSteps appDir ss fs = .ok (fs₁, l)) (hq : isFileB fs₁ q = true) :
    lookupFS fs₁ q = (contentsAt q ss).foldl stepPc (lookupFS fs q) := by
  induction ss generalizing fs l with
  | nil =>
      unfold runSteps at h
      simp only [Except.ok.injEq, Prod.mk.injEq] at h
      obtain ⟨hf, _⟩ := h
      subst hf
      rfl
  | cons s ss ih =>
      unfold runSteps at h
      cases hmf : _make_file appDir fs s.target s.content with
      | error e => rw [hmf] at h; exact absurd h (by simp)
      | ok pr =>
          obtain ⟨fsm, dm⟩ := pr
          rw [hmf] at h
          dsimp only at h
          cases hrs : runSteps appDir ss fsm with
          | error e => rw [hrs] at h; exact absurd h (by simp)
          | ok pr2 =>
              obtain ⟨fsr, dr⟩ := pr2
              rw [hrs] at h
              simp only [Except.ok.injEq, Prod.mk.injEq] at h
              obtain ⟨hfq, _⟩ := h
              subst hfq
              by_cases hst : s.target = q
              · subst hst
                have hcc : contentsAt s.target (s :: ss)
                    = s.content :: contentsAt s.target ss := by
                  simp [contentsAt]
                rw [hcc, List.foldl_cons]
                obtain ⟨hmk, hcases⟩ := make_file_ok_cases appDir fs s.target
                  s.content fsm dm hmf
                rcases hcases with ⟨hex, rfl⟩ | ⟨hfile, hsmall, rfl⟩
                  | ⟨hex, rfl, hlarge⟩
                · have hl0 : lookupFS fs s.target = none := by
                    unfold existsB at hex
                    have h2 := (Bool.or_eq_false_iff.mp hex).1
                    unfold isFileB at h2
                    cases hll : lookupFS fs s.target with
                    | none => rfl
                    | some v => rw [hll] at h2; simp at h2
                  rw [hl0]
                  have hstep : stepPc none s.content = some s.content := rfl
                  rw [hstep, ← lookupFS_setFS_eq fs s.target s.content]
                  exact ih (setFS fs s.target s.content) dr hrs
                · cases hll : lookupFS fs s.target with
                  | none =>
                      unfold isFileB at hfile
                      rw [hll] at hfile
                      simp at hfile
                  | some w =>
                      rw [hll] at hsmall
                      simp only [Option.getD_some] at hsmall
                      have hstep : stepPc (some w) s.content = some s.content := by
                        unfold stepPc
                        simp [hsmall]
                      rw [hstep, ← lookupFS_setFS_eq fs s.target s.content]
                      exact ih (setFS fs s.target s.content) dr hrs
                · by_cases hfile : isFileB fsm s.target = true
                  · have hnl := hlarge hfile
                    cases hll : lookupFS fsm s.target with
                    | none =>
                        unfold isFileB at hfile
                        rw [hll] at hfile
                        simp at hfile
                    | some w =>
                        rw [hll] at hnl
                        simp only [Option.getD_some] at hnl
                        have hstep : stepPc (some w) s.content = some w := by
                          unfold stepPc
                          simp [hnl]
                        rw [hstep, ← hll]
                        exact ih fsm dr hrs
                  · have hff : isFileB fsm s.target = false := by
                      cases hxx : isFileB fsm s.target
                      · rfl
                      · exact absurd hxx hfile
                    have hdir : isDirB appDir fsm s.target = true := by
                      unfold existsB at hex
                      rcases Bool.or_eq_true_iff.mp hex with hx | hx
                      · rw [hx] at hff; cases hff
                      · exact hx
                    have hcontr := runSteps_no_file_on_dir appDir ss fsm fsr dr
                      s.target hrs hdir hff
                    exact absurd hq (by simp [hcontr])
              · have hcc : contentsAt q (s :: ss) = contentsAt q ss := by
                  simp [contentsAt, hst]
                rw [hcc,
                  ← make_file_lookup_ne appDir fs s.target s.content fsm dm q
                    hmf (fun hEq => hst hEq.symm)]
                exact ih fsm dr hrs

theorem apply_fixes_ok_parts (appDir : Path) (fs : FS) (txt : String)
    (fs₁ : FS) (l₁ : List String)
    (h : _apply_fixes appDir fs txt = .ok (fs₁, l₁)) :
    ∃ fsA lA lS,
      runSteps appDir (fixSteps appDir (originOf appDir fs) txt) fs
        = .ok (fsA, lA)
      ∧ smokePart appDir fsA = .ok (fs₁, lS) := by
  unfold _apply_fixes at h
  cases hrs : runSteps appDir (fixSteps appDir (originOf appDir fs) txt) fs with
  | error e => rw [hrs] at h; exact absurd h (by simp)
  | ok pr =>
      obtain ⟨fsA, lA⟩ := pr
      rw [hrs] at h
      dsimp only at h
      cases hsm : smokePart appDir fsA with
      | error e => rw [hsm] at h; exact absurd h (by simp)
      | ok pr2 =>
          obtain ⟨fsB, lB⟩ := pr2
          rw [hsm] at h
          simp only [Except.ok.injEq, Prod.mk.injEq] at h
          refine ⟨fsA, lA, lB, rfl, ?_⟩
          rw [hsm, h.1]

/-- C3 counterexample: `_apply_fixes` is not idempotent as claimed.  On
the diagnostic text `cexDiag` (project root `/app`, empty tree), the
first application creates `lib/core/routing/app_router.dart`; the second
application of the very same text then resolves the relative URI
`../x.dart` against that newly existing probable-origin file instead of
`lib/`, and creates the additional file `lib/core/routing/x.dart`, so the
filesystem after the second application differs from the one after the
first. -/
theorem apply_fixes_not_idempotent :
    exOk (_apply_fixes (["app"]) ([]) cexDiag) = true
    ∧ exOk (_apply_fixes (["app"]) cexPass1 cexDiag) = true
    ∧ lookupFS cexPass1 (["app", "lib", "core", "routing", "x.dart"]) = none
    ∧ lookupFS cexPass2 (["app", "lib", "core", "routing", "x.dart"]) =
        some (_class_stub ("X")) := by decide

/-- C3 amended: applying `_apply_fixes` twice to the same diagnostic text
makes no further change on the second pass, provided the first pass leaves
the existence of the probable-origin file `lib/core/routing/app_router.dart`
unchanged (when the first pass creates that file, the anchor used to
resolve relative import URIs shifts and the second pass may create more
files — see the counterexample).  Under that hypothesis the second
application succeeds and the resulting filesystem agrees with the first
pass's output at every path. -/
theorem apply_fixes_idempotent_core (appDir : Path) (fs : FS) (txt : String)
    (fs₁ : FS) (l₁ : List String)
    (h : _apply_fixes appDir fs txt = .ok (fs₁, l₁))
    (hro : existsB appDir fs (routerPath appDir)
         = existsB appDir fs₁ (routerPath appDir)) :
    ∃ fs₂ l₂, _apply_fixes appDir fs₁ txt = .ok (fs₂, l₂)
      ∧ ∀ q, lookupFS fs₂ q = lookupFS fs₁ q := by
  obtain ⟨fsA, lA, lS, hrs, hsm⟩ := apply_fixes_ok_parts appDir fs txt fs₁ l₁ h
  set ss := fixSteps appDir (originOf appDir fs) txt with hss
  have horig : originOf appDir fs₁ = originOf appDir fs := by
    unfold originOf
    rw [hro]
  have hallA : ∀ s ∈ ss, StepOkAt appDir fsA s :=
    runSteps_StepOk_all appDir ss fs fsA lA hrs
  have hall1 : ∀ s ∈ ss, StepOkAt appDir fs₁ s := fun s hs =>
    smokePart_preserves_StepOk appDir fsA fs₁ lS s hsm (hallA s hs)
  obtain ⟨l₂', hrun2⟩ := runSteps_content appDir ss fs₁ hall1
  set T := ss.foldl cStep fs₁ with hT
  have hfix : ∀ q, lookupFS T q = lookupFS fs₁ q := by
    intro q
    rw [hT, foldl_cStep_lookup]
    cases hl : lookupFS fs₁ q with
    | none => exact stepCc_none_absorb _
    | some v =>
        rcases smokePart_ok_cases appDir fsA fs₁ lS hsm with
          ⟨hex, hfe⟩ | ⟨hex, hfe⟩
        · have hlA : lookupFS fsA q = some v := by rw [← hfe]; exact hl
          have hfq : isFileB fsA q = true := by
            unfold isFileB
            rw [hlA]
            rfl
          have hdec := runSteps_lookup_file appDir ss fs fsA lA q hrs hfq
          rw [hlA] at hdec
          exact chain_fix _ _ v hdec.symm
        · by_cases hq : q = smokePath appDir
          · subst hq
            have hnone : ∀ s ∈ ss, s.target ≠ smokePath appDir := by
              intro s hs hEq
              have hexs := (hallA s hs).1
              rw [hEq] at hexs
              rw [hex] at hexs
              cases hexs
            rw [contentsAt_eq_nil _ ss hnone]
            rfl
          · have hlA : lookupFS fsA q = some v := by
              rw [hfe] at hl
              rw [lookupFS_setFS_ne fsA (smokePath appDir) q smokeContent hq]
                at hl
              exact hl
            have hfq : isFileB fsA q = true := by
              unfold isFileB
              rw [hlA]
              rfl
            have hdec := runSteps_lookup_file appDir ss fs fsA lA q hrs hfq
            rw [hlA] at hdec
            exact chain_fix _ _ v hdec.symm
  have hsmoke1 : existsB appDir fs₁ (smokePath appDir) = true :=
    smokePart_smoke_exists appDir fsA fs₁ lS hsm
  have hkeys : keysOf T = keysOf fs₁ := keysOf_foldl_cStep ss fs₁
  have hsmokeT : existsB appDir T (smokePath appDir) = true := by
    rw [existsB_of_keys appDir fs₁ T (smokePath appDir) hkeys]
    exact hsmoke1
  have hsm2 : smokePart appDir T = .ok (T, []) := smokePart_id_of appDir T hsmokeT
  refine ⟨T, ((l₂' ++ (if hasMethodDiag txt then [methodNote] else [])) ++ []).filter
      (fun d => !(d == "")), ?_, hfix⟩
  unfold _apply_fixes
  rw [horig, ← hss, hrun2]
  dsimp only
  rw [hsm2]

/-- Witness for the C3 amended theorem at a concrete input: one relative
URI diagnostic on an empty tree under `/app`; the first pass leaves the
probable-origin file non-existent, so the second pass is a no-op. -/
theorem apply_fixes_idempotent_core_witness :
    ∃ fs₂ l₂, _apply_fixes (["app"]) wPass1.1 wDiag = .ok (fs₂, l₂)
      ∧ ∀ q, lookupFS fs₂ q = lookupFS wPass1.1 q :=
  apply_fixes_idempotent_core (["app"]) ([]) wDiag wPass1.1 wPass1.2
    (by rfl) (by decide)

theorem noDD_mem (p : Path) : noDD p = true ↔ ∀ c ∈ p, c ≠ ".." := by
  unfold noDD
  rw [List.all_eq_true]
  constructor
  · intro h c hc
    have := h c hc
    simpa using this
  · intro h c hc
    simp [h c hc]

theorem foldl_normStep_no_dd (xs : List String) (st : List String)
    (h : ∀ c ∈ xs, c ≠ "..") : xs.foldl normStep st = st ++ xs := by
  induction xs generalizing st with
  | nil => simp
  | cons c xs ih =>
      rw [List.foldl_cons]
      have hc : normStep st c = st ++ [c] := by
        unfold normStep
        rw [if_neg (h c (by simp))]
      rw [hc, ih (st ++ [c]) (fun d hd => h d (by simp [hd]))]
      simp

theorem normalize_eq_self (p : Path) (h : noDD p = true) : normalize p = p := by
  unfold normalize
  rw [foldl_normStep_no_dd p ([]) ((noDD_mem p).mp h)]
  rfl

theorem normalize_append_noDD (base : Path) (xs : List String)
    (hb : noDD base = true) (hx : ∀ c ∈ xs, c ≠ "..") :
    normalize (base ++ xs) = base ++ xs := by
  refine normalize_eq_self (base ++ xs) ?_
  refine (noDD_mem (base ++ xs)).mpr ?_
  intro c hc
  rcases List.mem_append.mp hc with hc | hc
  · exact (noDD_mem base).mp hb c hc
  · exact hx c hc

theorem prefix_append_within (base t : Path) :
    isWithinB base (base ++ t) = true := by
  unfold isWithinB
  exact List.isPrefixOf_iff_prefix.mpr (List.prefix_append base t)

theorem normalize_base_autofix_dd (base : Path) (hb : noDD base = true) :
    normalize (base ++ ["lib", "shared", "autofix", ".."])
      = base ++ ["lib", "shared"] := by
  unfold normalize
  rw [List.foldl_append]
  rw [foldl_normStep_no_dd base ([]) ((noDD_mem base).mp hb)]
  have h1 : normStep (([] : List String) ++ base) ("lib")
      = base ++ ["lib"] := by
    unfold normStep
    rw [if_neg (by decide)]
    simp
  have h2 : normStep (base ++ ["lib"]) ("shared")
      = base ++ ["lib", "shared"] := by
    unfold normStep
    rw [if_neg (by decide)]
    simp
  have h3 : normStep (base ++ ["lib", "shared"]) ("autofix")
      = base ++ ["lib", "shared", "autofix"] := by
    unfold normStep
    rw [if_neg (by decide)]
    simp
  have h4 : normStep (base ++ ["lib", "shared", "autofix"]) ("..")
      = base ++ ["lib", "shared"] := by
    unfold normStep
    rw [if_pos rfl]
    have : base ++ ["lib", "shared", "autofix"]
        = (base ++ ["lib", "shared"]) ++ ["autofix"] := by simp
    rw [this, List.dropLast_concat]
  simp only [List.foldl_cons, List.foldl_nil, h1, h2, h3, h4]

theorem splitCharAux_no_sep (sep : Char) (cs : List Char) :
    ∀ acc, sep ∉ cs → splitCharAux sep cs acc = [acc.reverse ++ cs] := by
  induction cs with
  | nil => intro acc _; simp [splitCharAux]
  | cons c cs ih =>
      intro acc h
      have hcs : sep ∉ cs := fun hm => h (by simp [hm])
      have hc : c ≠ sep := fun hEq => h (by simp [hEq])
      unfold splitCharAux
      rw [if_neg (fun hEq => hc hEq), ih (c :: acc) hcs]
      simp

theorem splitCharAux_comp_no_sep (sep : Char) (cs : List Char) :
    ∀ acc, sep ∉ acc → ∀ x ∈ splitCharAux sep cs acc, sep ∉ x := by
  induction cs with
  | nil =>
      intro acc hacc x hx
      simp [splitCharAux] at hx
      subst hx
      intro hm
      exact hacc (List.mem_reverse.mp hm)
  | cons c cs ih =>
      intro acc hacc x hx
      unfold splitCharAux at hx
      by_cases hc : c = sep
      · rw [if_pos hc] at hx
        rcases List.mem_cons.mp hx with rfl | hx'
        · intro hm
          exact hacc (List.mem_reverse.mp hm)
        · exact ih ([]) (by simp) x hx'
      · rw [if_neg hc] at hx
        refine ih (c :: acc) ?_ x hx
        intro hm
        rcases List.mem_cons.mp hm with hEq | hm'
        · exact hc hEq.symm
        · exact hacc hm'

theorem pyParts_single (n : String) (hn : ('/') ∉ n.data) :
    pyParts n = [] ∨ pyParts n = [n] := by
  have hsplit : splitChar ('/') n = [n] := by
    unfold splitChar
    rw [splitCharAux_no_sep ('/') n.data ([]) hn]
    rfl
  unfold pyParts
  rw [hsplit]
  cases hf : (!(n == "") && !(n == ".")) with
  | true => right; simp [List.filter_cons, hf]
  | false => left; simp [List.filter_cons, hf]

theorem pyParts_no_slash (s : String) : ∀ x ∈ pyParts s, ('/') ∉ x.data := by
  intro x hx
  unfold pyParts splitChar at hx
  have hx' := List.mem_of_mem_filter hx
  rcases List.mem_map.mp hx' with ⟨y, hy, rfl⟩
  have := splitCharAux_comp_no_sep ('/') s.data ([]) (by simp) y hy
  simpa using this

theorem getLastD_mem_or {α : Type} (l : List α) (d : α) :
    l.getLastD d ∈ l ∨ l.getLastD d = d := by
  induction l generalizing d with
  | nil => exact Or.inr rfl
  | cons a l ih =>
      rw [List.getLastD_cons]
      rcases ih a with h | h
      · exact Or.inl (List.mem_cons_of_mem a h)
      · refine Or.inl ?_
        rw [h]
        exact List.mem_cons_self a l

theorem pathName_no_slash (s : String) : ('/') ∉ (pathName s).data := by
  unfold pathName
  rcases getLastD_mem_or (pyParts s) ("") with h | h
  · exact pyParts_no_slash s _ h
  · rw [h]
    simp

theorem pyParts_autofix (name : String) :
    pyParts (("lib/shared/autofix/") ++ name)
      = ["lib", "shared", "autofix"] ++ pyParts name := rfl

theorem autofix_fallback_within (base : Path) (name : String)
    (hb : noDD base = true) (hn : ('/') ∉ name.data) :
    isWithinB base
      (normalize (base ++ pyParts (("lib/shared/autofix/") ++ name)))
      = true := by
  rw [pyParts_autofix]
  rcases pyParts_single name hn with h0 | h1
  · rw [h0]
    rw [normalize_append_noDD base _ hb (by decide)]
    exact prefix_append_within base _
  · rw [h1]
    by_cases hdd : name = ".."
    · subst hdd
      rw [show (["lib", "shared", "autofix"] ++ [".."] : List String)
          = ["lib", "shared", "autofix", ".."] from rfl]
      rw [normalize_base_autofix_dd base hb]
      exact prefix_append_within base _
    · rw [normalize_append_noDD base _ hb ?_]
      · exact prefix_append_within base _
      · intro c hc
        simp at hc
        rcases hc with rfl | rfl | rfl | rfl
        · decide
        · decide
        · decide
        · exact hdd

theorem safe_under_autofix_within (base : Path) (d : List String)
    (name : String) (hb : noDD base = true) (hn : ('/') ∉ name.data) :
    isWithinB base (_safe_under base d (("lib/shared/autofix/") ++ name))
      = true := by
  unfold _safe_under
  split
  · next h => exact h
  · exact autofix_fallback_within base name hb hn

theorem guess_path_within (appDir origin : Path) (uri : String) (p : Path)
    (hb : noDD appDir = true)
    (h : _guess_path_from_uri appDir origin uri = some p) :
    isWithinB appDir p = true := by
  unfold _guess_path_from_uri at h
  dsimp only at h
  split at h
  · cases h
  · split at h
    · split at h
      · cases h
      · simp only [Option.some.injEq] at h
        rw [← h]
        exact safe_under_autofix_within appDir _ _ hb (pathName_no_slash _)
    · simp only [Option.some.injEq] at h
      rw [← h]
      exact safe_under_autofix_within appDir _ _ hb (pathName_no_slash uri)

theorem uriStep_target_within (appDir origin : Path) (uri : String)
    (hb : noDD appDir = true) (s : FixStep)
    (h : uriStep appDir origin uri = some s) :
    isWithinB appDir s.target = true := by
  unfold uriStep at h
  cases hg : _guess_path_from_uri appDir origin uri with
  | none => rw [hg] at h; cases h
  | some proto =>
      rw [hg] at h
      dsimp only at h
      simp only [Option.some.injEq] at h
      rw [← h]
      exact safe_under_autofix_within appDir proto (pathName uri) hb
        (pathName_no_slash uri)

theorem dart_suffix_ne_dd (a : String) : a ++ (".dart") ≠ ".." := by
  intro hEq
  have hlen := congrArg String.length hEq
  rw [String.length_append] at hlen
  have h5 : (".dart").length = 5 := rfl
  have h2 : ("..").length = 2 := rfl
  omega

theorem classStep_target_within (appDir : Path) (cls : String)
    (hb : noDD appDir = true) :
    isWithinB appDir (classStep appDir cls).target = true := by
  unfold classStep
  dsimp only
  have hx : ∀ c ∈ (["lib", "shared", "autofix",
      strToLower cls ++ (".dart")] : List String), c ≠ ".." := by
    intro c hc
    simp only [List.mem_cons, List.mem_singleton] at hc
    rcases hc with rfl | rfl | rfl | rfl | hfalse
    · decide
    · decide
    · decide
    · exact dart_suffix_ne_dd (strToLower cls)
    · cases hfalse
  have hnorm : normalize (appDir ++ ["lib", "shared", "autofix",
      strToLower cls ++ (".dart")]) = appDir ++ ["lib", "shared", "autofix",
      strToLower cls ++ (".dart")] :=
    normalize_append_noDD appDir _ hb hx
  unfold _safe_under
  rw [hnorm, hnorm, if_pos (prefix_append_within appDir _)]
  exact prefix_append_within appDir _

theorem fixSteps_targets_within (appDir origin : Path) (txt : String)
    (hb : noDD appDir = true) :
    ∀ s ∈ fixSteps appDir origin txt, isWithinB appDir s.target = true := by
  intro s hs
  unfold fixSteps at hs
  rcases List.mem_append.mp hs with hs | hs
  · rcases List.mem_filterMap.mp hs with ⟨uri, _, hu⟩
    exact uriStep_target_within appDir origin uri hb s hu
  · rcases List.mem_filterMap.mp hs with ⟨m, _, hm⟩
    dsimp only at hm
    by_cases hc : (if m.1 ≠ "" then m.1 else m.2) = ""
    · rw [if_pos hc] at hm
      cases hm
    · rw [if_neg hc] at hm
      simp only [Option.some.injEq] at hm
      rw [← hm]
      exact classStep_target_within appDir _ hb

theorem runSteps_lookup_outside (appDir : Path) (ss : List FixStep)
    (fs fs₁ : FS) (l : List String) (q : Path)
    (h : runSteps appDir ss fs = .ok (fs₁, l))
    (hq : ∀ s ∈ ss, s.target ≠ q) :
    lookupFS fs₁ q = lookupFS fs q := by
  induction ss generalizing fs l with
  | nil =>
      unfold runSteps at h
      simp only [Except.ok.injEq, Prod.mk.injEq] at h
      rw [← h.1]
  | cons t ss ih =>
      unfold runSteps at h
      cases hmf : _make_file appDir fs t.target t.content with
      | error e => rw [hmf] at h; exact absurd h (by simp)
      | ok pr =>
          obtain ⟨fsm, dm⟩ := pr
          rw [hmf] at h
          dsimp only at h
          cases hrs : runSteps appDir ss fsm with
          | error e => rw [hrs] at h; exact absurd h (by simp)
          | ok pr2 =>
              obtain ⟨fsr, dr⟩ := pr2
              rw [hrs] at h
              simp only [Except.ok.injEq, Prod.mk.injEq] at h
              obtain ⟨hfq, _⟩ := h
              subst hfq
              rw [ih fsm dr hrs (fun s hs => hq s (by simp [hs]))]
              exact make_file_lookup_ne appDir fs t.target t.content fsm dm q
                hmf (fun hEq => hq t (by simp) hEq.symm)

theorem smokePart_lookup_ne (appDir : Path) (fs fs' : FS) (l : List String)
    (q : Path) (h : smokePart appDir fs = .ok (fs', l))
    (hq : q ≠ smokePath appDir) : lookupFS fs' q = lookupFS fs q := by
  rcases smokePart_ok_cases appDir fs fs' l h with ⟨_, rfl⟩ | ⟨_, rfl⟩
  · rfl
  · exact lookupFS_setFS_ne fs (smokePath appDir) q smokeContent hq

theorem extractAux_isSome (l : List LogEntry)
    (h : ∃ e ∈ l, e.name = ("fs_diff")) : (extractAux l).isSome = true := by
  induction l with
  | nil =>
      rcases h with ⟨e, he, _⟩
      exact absurd he (List.not_mem_nil e)
  | cons a rest ih =>
      rw [extractAux]
      by_cases ha : a.name = ("fs_diff")
      · rw [if_pos ha]; rfl
      · rw [if_neg ha]
        rcases h with ⟨e, he, hn⟩
        rcases List.mem_cons.mp he with rfl | hm
        · exact absurd hn ha
        · exact ih ⟨e, hm, hn⟩

theorem extract_isSome_of_mem (l : List LogEntry)
    (h : ∃ e ∈ l, e.name = ("fs_diff")) :
    (_extract_diff_preview l).isSome = true := by
  unfold _extract_diff_preview
  rcases h with ⟨e, he, hn⟩
  exact extractAux_isSome _ ⟨e, List.mem_reverse.mpr he, hn⟩

theorem mem_append_singleton_diff (l : List LogEntry) (a : ToolArgs)
    (r : ToolResult) :
    ∃ e ∈ l ++ [logE ("fs_diff") a r], e.name = ("fs_diff") :=
  ⟨logE ("fs_diff") a r,
    List.mem_append.mpr (Or.inr (List.mem_singleton.mpr rfl)), rfl⟩

theorem dispatch_glob_snd (subn : SubnEngine) (root : Path) (fs : FS)
    (args : ToolArgs) :
    (dispatch_tool_call subn root fs ("fs_glob") args).2 = fs :=
  dispatch_nonwritey_snd subn root fs _ args (by decide)

theorem dispatch_diff_snd (subn : SubnEngine) (root : Path) (fs : FS)
    (args : ToolArgs) :
    (dispatch_tool_call subn root fs ("fs_diff") args).2 = fs :=
  dispatch_nonwritey_snd subn root fs _ args (by decide)

theorem writeySkipped_nil : WriteySkipped [] := by
  intro e he
  exact absurd he (List.not_mem_nil e)

theorem writeySkipped_singleton (e : LogEntry) (h : e.name ∉ WRITEY) :
    WriteySkipped [e] := by
  intro x hx hw
  rw [List.mem_singleton] at hx
  subst hx
  exact absurd hw h

theorem writeySkipped_logE (n : String) (a : ToolArgs) (r : ToolResult)
    (h : n ∉ WRITEY) : WriteySkipped [logE n a r] :=
  writeySkipped_singleton _ h

theorem isDoneText_empty : isDoneText ("") = false := by decide

/-- The run's elapsed loop time is exactly what the turn loop accumulated:
finalization (globs, the final diff, persistence) does not advance it. -/
theorem adapt_elapsed (subn : SubnEngine) (root : Path) (jobId : String)
    (cfg : AgentCfg) (script : Nat → ModelResponse) (fs₀ : FS) :
    (adapt_repository_with_agent subn root jobId cfg script fs₀).elapsed
      = (runTurns subn root cfg script 13 1
          { t := 0, fs := fs₀, log := [], touched := [], calls := 0 }).1.t := by
  unfold adapt_repository_with_agent
  dsimp only
  split <;> rfl

theorem adapt_calls (subn : SubnEngine) (root : Path) (jobId : String)
    (cfg : AgentCfg) (script : Nat → ModelResponse) (fs₀ : FS) :
    (adapt_repository_with_agent subn root jobId cfg script fs₀).calls
      = (runTurns subn root cfg script 13 1
          { t := 0, fs := fs₀, log := [], touched := [], calls := 0 }).1.calls := by
  unfold adapt_repository_with_agent
  dsimp only
  split <;> rfl

theorem adapt_exit (subn : SubnEngine) (root : Path) (jobId : String)
    (cfg : AgentCfg) (script : Nat → ModelResponse) (fs₀ : FS) :
    (adapt_repository_with_agent subn root jobId cfg script fs₀).exit
      = (runTurns subn root cfg script 13 1
          { t := 0, fs := fs₀, log := [], touched := [], calls := 0 }).2 := by
  unfold adapt_repository_with_agent
  dsimp only

theorem adapt_summary_eq (subn : SubnEngine) (root : Path) (jobId : String)
    (cfg : AgentCfg) (script : Nat → ModelResponse) (fs₀ : FS) :
    (adapt_repository_with_agent subn root jobId cfg script fs₀).summary
      = buildSummary (runTurns subn root cfg script 13 1
          { t := 0, fs := fs₀, log := [], touched := [], calls := 0 }).1.touched := by
  unfold adapt_repository_with_agent
  dsimp only
  split <;> rfl

/-- Whatever the run did, the report's diff preview is populated: either the
model already called `fs_diff` (the extractor finds that entry) or the
finalization appends one. -/
theorem adapt_diffPreview_some (subn : SubnEngine) (root : Path)
    (jobId : String) (cfg : AgentCfg) (script : Nat → ModelResponse)
    (fs₀ : FS) :
    (adapt_repository_with_agent subn root jobId cfg script fs₀).diffPreview.isSome
      = true := by
  unfold adapt_repository_with_agent
  dsimp only
  split
  · next h =>
      apply extract_isSome_of_mem
      rcases List.any_eq_true.mp h with ⟨e, he, hbe⟩
      exact ⟨e, he, by simpa using hbe⟩
  · exact extract_isSome_of_mem _ (mem_append_singleton_diff _ _ _)

theorem adapt_log_writey_vo (subn : SubnEngine) (root : Path) (jobId : String)
    (cfg : AgentCfg) (script : Nat → ModelResponse) (fs₀ : FS)
    (hv : cfg.validateOnly = true) :
    WriteySkipped
      (adapt_repository_with_agent subn root jobId cfg script fs₀).toolLog := by
  have hloop : WriteySkipped (runTurns subn root cfg script 13 1
      { t := 0, fs := fs₀, log := [], touched := [], calls := 0 }).1.log :=
    runTurns_log_vo subn root cfg script hv 13 1 _ writeySkipped_nil
  unfold adapt_repository_with_agent
  dsimp only
  split
  · exact writeySkipped_append
      (writeySkipped_append hloop (writeySkipped_logE _ _ _ (by decide)))
      (writeySkipped_logE _ _ _ (by decide))
  · exact writeySkipped_append
      (writeySkipped_append
        (writeySkipped_append hloop (writeySkipped_logE _ _ _ (by decide)))
        (writeySkipped_logE _ _ _ (by decide)))
      (writeySkipped_logE _ _ _ (by decide))

theorem adapt_fs_lookup (subn : SubnEngine) (root : Path) (jobId : String)
    (cfg : AgentCfg) (script : Nat → ModelResponse) (fs₀ : FS) (q : Path)
    (hq : q ≠ lastRunPath root) :
    lookupFS (adapt_repository_with_agent subn root jobId cfg script fs₀).fs q
      = lookupFS (runTurns subn root cfg script 13 1
          { t := 0, fs := fs₀, log := [], touched := [], calls := 0 }).1.fs q := by
  unfold adapt_repository_with_agent
  dsimp only
  split <;>
    rw [persistLastRun_lookup_ne root _ _ q hq] <;>
    simp only [dispatch_glob_snd, dispatch_diff_snd]

/-- C1 (code evaluated at the failing input): the filesystem tools perform
no containment check.  `fs_write` with the escaping path `../escape.txt`
resolves outside the project root `/repo`, yet returns ok=true and creates
`/escape.txt` — contradicting the claim that every escaping path is
rejected with ok=false and the filesystem left unmodified. -/
theorem fs_write_escaping_path_succeeds :
    (fs_write (["repo"]) ([]) ("../escape.txt") ("x") ("w")).1.ok = true
    ∧ isWithinB (["repo"]) (resolveUnder (["repo"]) ("../escape.txt")) = false
    ∧ lookupFS (fs_write (["repo"]) ([]) ("../escape.txt") ("x") ("w")).2
        (["escape.txt"]) = some ("x")
    ∧ lookupFS ([] : FS) (["escape.txt"]) = none := by decide

/-- C9 (code evaluated at the failing input): `fs_delete` has no deny-list
of protected top-level names.  Deleting the top-level `backend` tree
succeeds (ok=true) and removes every file below it, contradicting the
claim that protected top-level names are refused with ok=false. -/
theorem fs_delete_protected_name_succeeds :
    (fs_delete (["repo"]) ([(["repo", "backend", "app.py"], "code")])
        ("backend") true).1.ok = true
    ∧ (fs_delete (["repo"]) ([(["repo", "backend", "app.py"], "code")])
        ("backend") true).2 = [] := by decide

/-- C10: `fs_patch` with `create_if_missing=true` on a missing path first
creates an empty file, and when a replacement pattern is rejected by the
regex engine it returns ok=false while the newly created empty file stays
on disk — the failing call is not atomic. -/
theorem fs_patch_invalid_regex_leaves_created_file (subn : SubnEngine)
    (root : Path) (fs : FS) (path : String) (r : Replacement)
    (rs : List Replacement)
    (h₁ : existsB root fs (resolveUnder root path) = false)
    (h₂ : mkdirOk fs (resolveUnder root path).dropLast = true)
    (h₃ : subn r.pattern r.replacement ("") r.rcount = none) :
    (fs_patch subn root fs path (r :: rs) true).1.ok = false
    ∧ lookupFS (fs_patch subn root fs path (r :: rs) true).2
        (resolveUnder root path) = some ("")
    ∧ lookupFS fs (resolveUnder root path) = none := by
  have hfile : isFileB fs (resolveUnder root path) = false := by
    unfold existsB at h₁
    exact (Bool.or_eq_false_iff.mp h₁).1
  have hnone : lookupFS fs (resolveUnder root path) = none := by
    unfold isFileB at hfile
    cases hl : lookupFS fs (resolveUnder root path) with
    | none => rfl
    | some v => rw [hl] at hfile; simp at hfile
  have hset : lookupFS (setFS fs (resolveUnder root path) ("") )
      (resolveUnder root path) = some ("") :=
    lookupFS_setFS_self fs (resolveUnder root path) ("") hfile
  unfold fs_patch
  simp only [h₁, h₂, Bool.false_eq_true, not_false_iff, true_and,
    if_false, ite_false, ite_true, not_true, false_and, and_true,
    and_false]
  simp only [hset]
  unfold applyRepls
  rw [h₃]
  exact ⟨rfl, hset, hnone⟩

/-- Witness for the C10 theorem at a concrete input: an always-failing
engine (an invalid pattern such as an unbalanced parenthesis makes
`re.subn` raise `re.error` for every call) on an empty filesystem. -/
theorem fs_patch_invalid_regex_leaves_created_file_witness :
    ((fs_patch (fun _ _ _ _ => none) (["repo"]) ([]) ("new.txt")
        ([{ pattern := "(", replacement := "x" }]) true).1.ok = false
    ∧ lookupFS (fs_patch (fun _ _ _ _ => none) (["repo"]) ([]) ("new.txt")
        ([{ pattern := "(", replacement := "x" }]) true).2
        (resolveUnder (["repo"]) ("new.txt")) = some (""))
    ∧ lookupFS ([] : FS) (resolveUnder (["repo"]) ("new.txt")) = none := by
  have h := fs_patch_invalid_regex_leaves_created_file
    (fun _ _ _ _ => none) (["repo"]) ([]) ("new.txt")
    ({ pattern := "(", replacement := "x" }) ([]) (by decide) (by decide) rfl
  exact ⟨⟨h.1, h.2.1⟩, h.2.2⟩

/-- C7: repair target paths are always inside the project root.  With a
resolved project root (no `..` components, as `run_compile_loop`
guarantees): (i) every path `_guess_path_from_uri` proposes is inside
`appDir`; (ii) when the derived path escapes the root, `_safe_under`
substitutes the fixed fallback `lib/shared/autofix/<filename>` under the
root instead of refusing; (iii) consequently a successful `_apply_fixes`
only ever changes paths inside the project root. -/
theorem repair_paths_confined (appDir : Path) (hb : noDD appDir = true) :
    (∀ origin uri p, _guess_path_from_uri appDir origin uri = some p →
        isWithinB appDir p = true)
    ∧ (∀ d name, ('/') ∉ name.data →
        isWithinB appDir (normalize d) = false →
        _safe_under appDir d (("lib/shared/autofix/") ++ name)
          = normalize (appDir ++ pyParts (("lib/shared/autofix/") ++ name))
        ∧ isWithinB appDir
            (_safe_under appDir d (("lib/shared/autofix/") ++ name)) = true)
    ∧ (∀ fs txt fs' l, _apply_fixes appDir fs txt = .ok (fs', l) →
        ∀ q, lookupFS fs' q ≠ lookupFS fs q → isWithinB appDir q = true) := by
  refine ⟨?_, ?_, ?_⟩
  · intro origin uri p h
    exact guess_path_within appDir origin uri p hb h
  · intro d name hn hesc
    constructor
    · unfold _safe_under
      rw [if_neg (by simp [hesc])]
    · exact safe_under_autofix_within appDir d name hb hn
  · intro fs txt fs' l h q hch
    by_contra hnw
    have hw : isWithinB appDir q = false := by
      cases hx : isWithinB appDir q
      · rfl
      · exact absurd hx hnw
    obtain ⟨fsA, lA, lS, hrs, hsm⟩ := apply_fixes_ok_parts appDir fs txt
      fs' l h
    have htg : ∀ s ∈ fixSteps appDir (originOf appDir fs) txt,
        s.target ≠ q := by
      intro s hs hEq
      have hwithin := fixSteps_targets_within appDir (originOf appDir fs)
        txt hb s hs
      rw [hEq, hw] at hwithin
      cases hwithin
    have h1 : lookupFS fsA q = lookupFS fs q :=
      runSteps_lookup_outside appDir _ fs fsA lA q hrs htg
    have hqs : q ≠ smokePath appDir := by
      intro hEq
      have hsw : isWithinB appDir (smokePath appDir) = true := by
        unfold smokePath
        exact prefix_append_within appDir _
      rw [← hEq, hw] at hsw
      cases hsw
    have h2 : lookupFS fs' q = lookupFS fsA q :=
      smokePart_lookup_ne appDir fsA fs' lS q hsm hqs
    exact hch (by rw [h2, h1])

/-- Witness for C7 at a concrete escaping input: under root `/app`, the
relative URI `../../../etc/passwd` resolves to `/etc/passwd`, outside the
root, and is clamped to `/app/lib/shared/autofix/passwd`, which lies
inside the root. -/
theorem repair_paths_confined_witness :
    noDD (["app"]) = true
    ∧ isWithinB (["app"]) (["app", "lib", "shared", "autofix", "passwd"])
      = true := by
  refine ⟨by decide, ?_⟩
  exact (repair_paths_confined (["app"]) (by decide)).1 (["app", "lib"])
    ("../../../etc/passwd") (["app", "lib", "shared", "autofix", "passwd"])
    (by decide)

/-! ## Claim theorems: progress bus -/

theorem publishOne_not_full {α : Type} (cap : Nat) (x : α) (q : List α)
    (h : cap = 0 ∨ q.length < cap) : publishOne cap x q = q ++ [x] := by
  unfold publishOne
  rw [if_pos h]

/-- C8: fan-out semantics of `ProgressBus.publish`.
(i) a subscriber whose buffer never fills receives every published event,
in publish order; (ii) publishing against a full buffer (capacity reached,
capacity positive) drops exactly that subscriber's oldest buffered event
and appends the new one; (iii) a publish acts on each subscriber's queue
independently, leaving all other subscribers' queues governed only by
their own state.  `publish` never blocks the publisher: it is a total
function built from `put_nowait`/`get_nowait` alone. -/
theorem busPublish_order_drop_oldest_isolated {α : Type} (cap : Nat) :
    (∀ (q : List α) (es : List α), cap = 0 ∨ q.length + es.length ≤ cap →
        es.foldl (fun acc x => publishOne cap x acc) q = q ++ es)
    ∧ (∀ (q : List α) (x : α), 0 < cap → q.length = cap →
        publishOne cap x q = q.tail ++ [x])
    ∧ (∀ (pre post : List (List α)) (q : List α) (x : α),
        busPublish cap (pre ++ q :: post) x =
          busPublish cap pre x ++ publishOne cap x q :: busPublish cap post x) := by
  refine ⟨?_, ?_, ?_⟩
  · intro q es
    induction es generalizing q with
    | nil => intro _; simp
    | cons e es ih =>
        intro h
        have hne : cap = 0 ∨ q.length < cap := by
          rcases h with h | h
          · exact Or.inl h
          · exact Or.inr (by simp [List.length_cons] at h; omega)
        rw [List.foldl_cons, publishOne_not_full cap e q hne]
        have h' : cap = 0 ∨ (q ++ [e]).length + es.length ≤ cap := by
          rcases h with h | h
          · exact Or.inl h
          · exact Or.inr (by simp [List.length_append, List.length_cons] at h ⊢; omega)
        rw [ih (q ++ [e]) h', List.append_assoc]
        rfl
  · intro q x hcap hfull
    unfold publishOne
    rw [if_neg (by omega)]
    cases q with
    | nil => simp at hfull; omega
    | cons h t => rfl
  · intro pre post q x
    unfold busPublish
    rw [List.map_append, List.map_cons]

/-- Witness for the C8 theorem at concrete inputs: capacity 2, events
delivered in order to a subscriber with space; a full subscriber `[0, 1]`
drops its oldest event `0`; a neighbouring subscriber is untouched. -/
theorem busPublish_order_drop_oldest_isolated_witness :
    ([10, 20].foldl (fun acc x => publishOne 3 x acc) ([5]) = [5, 10, 20]
    ∧ publishOne 2 (9 : Nat) ([0, 1]) = [1, 9])
    ∧ busPublish 2 ([[0, 1], [7]]) (9 : Nat) = [[1, 9], [7, 9]] := by
  have h := busPublish_order_drop_oldest_isolated (α := Nat) 2
  have h3 := busPublish_order_drop_oldest_isolated (α := Nat) 3
  refine ⟨⟨?_, ?_⟩, ?_⟩
  · exact h3.1 ([5]) ([10, 20]) (by decide)
  · exact h.2.1 ([0, 1]) 9 (by decide) (by decide)
  · have := h.2.2 ([]) ([[7]]) ([0, 1]) 9
    simpa using this

/-- C5: for every client script (every sequence of turn latencies, however
large), the Agent Loop's cumulative elapsed time never exceeds the
wall-clock budget by more than the duration of one in-flight call (which
`asyncio.wait_for` caps at the per-turn timeout, itself at most
`max 1 turn_timeout`): each turn recomputes the remaining time from the
same deadline, declines to start when it is zero, and aborts an
overrunning call at its timeout. -/
theorem agent_loop_elapsed_within_budget (subn : SubnEngine) (root : Path)
    (jobId : String) (cfg : AgentCfg) (script : Nat → ModelResponse)
    (fs₀ : FS) (hb : 0 ≤ cfg.budget) :
    (adapt_repository_with_agent subn root jobId cfg script fs₀).elapsed
      ≤ cfg.budget + pyMax 1 cfg.turnTimeout := by
  have h1 : (1:ℚ) ≤ pyMax 1 cfg.turnTimeout := le_pyMax_left ..
  have hM : (0:ℚ) ≤ cfg.budget + pyMax 1 cfg.turnTimeout := by linarith
  have hrun := runTurns_t_le subn root cfg script 13 1
    { t := 0, fs := fs₀, log := [], touched := [], calls := 0 }
  rw [adapt_elapsed]
  calc (runTurns subn root cfg script 13 1
          { t := 0, fs := fs₀, log := [], touched := [], calls := 0 }).1.t
      ≤ pyMax 0 (cfg.budget + pyMax 1 cfg.turnTimeout) := hrun
    _ = cfg.budget + pyMax 1 cfg.turnTimeout := pyMax_eq_right hM

theorem agent_loop_elapsed_within_budget_witness :
    (0:ℚ) ≤ ({} : AgentCfg).budget ∧
    (adapt_repository_with_agent subnNone (["repo"]) ("job") {} scriptSilent
        []).elapsed
      ≤ ({} : AgentCfg).budget + pyMax 1 ({} : AgentCfg).turnTimeout :=
  ⟨by show (0:ℚ) ≤ 60; norm_num,
    agent_loop_elapsed_within_budget subnNone (["repo"]) ("job") {}
      scriptSilent [] (by show (0:ℚ) ≤ 60; norm_num)⟩

/-- C4: with a client whose responses carry zero tool calls and whose text
never begins with the `DONE:` sentinel (and which answers instantly, as a
mock does), the loop runs exactly the hard-coded cap of 13 turns, then the
finalization still produces a report whose summary is populated and whose
diff preview is present. -/
theorem agent_silent_client_cap_and_report (subn : SubnEngine) (root : Path)
    (jobId : String) (cfg : AgentCfg) (script : Nat → ModelResponse)
    (fs₀ : FS)
    (hs : ∀ n, (script n).toolCalls = [] ∧
      isDoneText (script n).text = false ∧ (script n).latency = 0)
    (hb : 0 < cfg.budget) :
    (adapt_repository_with_agent subn root jobId cfg script fs₀).calls = 13 ∧
    (adapt_repository_with_agent subn root jobId cfg script fs₀).exit
      = ExitReason.capReached ∧
    (adapt_repository_with_agent subn root jobId cfg script fs₀).summary
      = ("DONE: Agent run completed.") ∧
    (adapt_repository_with_agent subn root jobId cfg script
        fs₀).diffPreview.isSome = true := by
  have hrun := runTurns_silent subn root cfg script hs hb 13 1
    { t := 0, fs := fs₀, log := [], touched := [], calls := 0 } rfl
  refine ⟨?_, ?_, ?_, adapt_diffPreview_some ..⟩
  · rw [adapt_calls, hrun]
  · rw [adapt_exit, hrun]
  · rw [adapt_summary_eq, hrun]
    exact rfl

theorem agent_silent_client_cap_and_report_witness :
    (∀ n, (scriptSilent n).toolCalls = [] ∧
      isDoneText (scriptSilent n).text = false ∧
      (scriptSilent n).latency = 0) ∧
    (0:ℚ) < ({} : AgentCfg).budget ∧
    ((adapt_repository_with_agent subnNone (["repo"]) ("jobs") {} scriptSilent
        []).calls = 13 ∧
      (adapt_repository_with_agent subnNone (["repo"]) ("jobs") {} scriptSilent
        []).exit = ExitReason.capReached ∧
      (adapt_repository_with_agent subnNone (["repo"]) ("jobs") {} scriptSilent
        []).summary = ("DONE: Agent run completed.") ∧
      (adapt_repository_with_agent subnNone (["repo"]) ("jobs") {} scriptSilent
        []).diffPreview.isSome = true) :=
  ⟨fun _ => ⟨rfl, isDoneText_empty, rfl⟩, by show (0:ℚ) < 60; norm_num,
    agent_silent_client_cap_and_report subnNone (["repo"]) ("jobs") {}
      scriptSilent [] (fun _ => ⟨rfl, isDoneText_empty, rfl⟩)
      (by show (0:ℚ) < 60; norm_num)⟩

/-- C2 as stated is false: a validate-only run skips every mutating tool
call, but the `finally` block still persists the run record, so the
filesystem is not byte-for-byte identical.  Starting from an empty tree, a
validate-only run that requests one `fs_write` ends with
`workspace/.omega/last_run.json` on disk. -/
theorem agent_validate_only_fs_not_identical :
    (adapt_repository_with_agent subnNone (["repo"]) ("job")
        { validateOnly := true } scriptWriteThenDone []).fs ≠ [] := by
  decide

/-- C2 (amended): with `validate_only=true`, every mutating tool call the
model requests (`fs_write`, `fs_patch`, `fs_mkdir`, `fs_delete`) is
answered `ok=true, skipped=true` without being dispatched, and the
filesystem is unchanged at every path except the persisted run record
`workspace/.omega/last_run.json` under the project root. -/
theorem agent_validate_only_skips_and_frames (subn : SubnEngine)
    (root : Path) (jobId : String) (cfg : AgentCfg)
    (script : Nat → ModelResponse) (fs₀ : FS)
    (hv : cfg.validateOnly = true) :
    WriteySkipped
      (adapt_repository_with_agent subn root jobId cfg script fs₀).toolLog ∧
    ∀ q, q ≠ lastRunPath root →
      lookupFS (adapt_repository_with_agent subn root jobId cfg script fs₀).fs q
        = lookupFS fs₀ q := by
  refine ⟨adapt_log_writey_vo subn root jobId cfg script fs₀ hv, ?_⟩
  intro q hq
  rw [adapt_fs_lookup subn root jobId cfg script fs₀ q hq]
  rw [runTurns_fs_vo subn root cfg script hv 13 1]

theorem agent_validate_only_skips_and_frames_witness :
    ({ validateOnly := true } : AgentCfg).validateOnly = true ∧
    (WriteySkipped
      (adapt_repository_with_agent subnNone (["repo"]) ("jobv")
        { validateOnly := true } scriptWriteThenDone []).toolLog ∧
    ∀ q, q ≠ lastRunPath (["repo"]) →
      lookupFS (adapt_repository_with_agent subnNone (["repo"]) ("jobv")
        { validateOnly := true } scriptWriteThenDone []).fs q
        = lookupFS [] q) :=
  ⟨rfl,
    agent_validate_only_skips_and_frames subnNone (["repo"]) ("jobv")
      { validateOnly := true } scriptWriteThenDone [] rfl⟩

/-- C6 (code evaluated at the failing input): the Idle-Aware Test Runner
does NOT kill a process that produces no output: `readline()` on an open
pipe with no pending line blocks forever, so for a child that never
writes, never closes its pipes and never exits, the loop never reaches
either kill check — whatever the idle threshold, hard timeout or number
of loop iterations available. -/
theorem test_runner_silent_child_never_killed (exitCode hard idle fuel : Nat)
    (out err : StreamState) (hout : out.lines = []) (heof : out.eofAt = none)
    (hfuel : 0 < fuel) :
    _run_test_machine none exitCode hard idle fuel (runBoot out err)
      = RunOutcome.blocked := by
  obtain ⟨f, rfl⟩ : ∃ f, fuel = f + 1 := ⟨fuel - 1, by omega⟩
  have hrl : readlineAt (runBoot out err).t (runBoot out err).out = none := by
    show readlineAt 0 out = none
    unfold readlineAt
    rw [hout]
    dsimp only
    rw [heof]
  simp only [_run_test_machine, hrl]

theorem test_runner_silent_child_never_killed_witness :
    silentStream.lines = [] ∧ silentStream.eofAt = none ∧ 0 < 5 ∧
    _run_test_machine none 0 3600 60 5 (runBoot silentStream silentStream)
      = RunOutcome.blocked :=
  ⟨rfl, rfl, by decide,
    test_runner_silent_child_never_killed 0 3600 60 5 silentStream
      silentStream rfl rfl (by decide)⟩

end Spec2Proof
